import Mathlib

/-!
# Connection pool of `util/pool.go` and `DelSpace` of `util/del_space.go`

A shallow embedding of `ConnPool` (construction, `Get`, `Put`, `Close`) for
sequential runs and of the string function `DelSpace`, and theorems about them.

Modelling conventions
* A `Conn` is the nil interface value or an object named by an identifier.
  Calling a method on the nil value panics, as in Go.
* Calls the pool makes on resources are recorded in `World.log`
  (`Ping` and `Close`, in call order); `World.made` counts factory calls.
* The factory is a stream of results: its `k`-th invocation answers
  `factory k`, `none` standing for a non-nil error.
* What `Ping` answers during one call is given by `ping : Nat → Bool`
  (`true` for a nil error).
* Times and durations are integers (nanoseconds); `time.Since t` read at
  clock value `now` is `now - t`.  `GetAt clock` is `Get` with the clock
  read anew for every entry it examines, as the code does; `Get now` is the
  call during which the clock stands at `now` (`GetAt_const`).
* The channel is a queue with a fixed capacity and a closed flag.  A send
  on a full channel does not complete in a sequential run: the operation
  ends in `Outcome.block`.  `make` panics for a negative size and for a
  size above `maxChanSize`.
* The mutex is taken and released inside `Close` only, so in a sequential
  run it is free whenever `Close` starts; it is not part of the state.
-/

namespace Util

/-! ## Data model -/

/-- Connection value held by the pool: nil, or the object with the given identifier. -/
inductive Conn where
  | nil
  | ref (id : Nat)
deriving DecidableEq, Repr

/-- Result stream of the factory: `none` is a non-nil error. -/
abbrev Factory := Nat → Option Conn

/-- Connection together with the time it was put into the channel. -/
structure ConnWithTime where
  conn : Conn
  time : Int
deriving DecidableEq, Repr

/-- Buffered Go channel of `*ConnWithTime`. -/
structure Chan where
  buf : List ConnWithTime
  capacity : Nat
  closed : Bool
deriving DecidableEq, Repr

/-- Fields of `ConnPool` (the mutex apart). -/
structure ConnPool where
  connChan : Chan
  factory : Factory
  closed : Bool
  connTimeOut : Int
  cap : Int

/-- Method call made by the pool on a resource. -/
inductive Event where
  | ping (id : Nat)
  | close (id : Nat)
deriving DecidableEq, Repr

/-- Pool plus the observable history of its environment. -/
structure World where
  pool : ConnPool
  made : Nat
  log : List Event

/-- How a call ends: it returns, it waits forever on the channel, or it panics. -/
inductive Outcome (α : Type) where
  | ret (a : α)
  | block (w : World)
  | panicked

/-- Holding area of the pool. -/
def World.buf (w : World) : List ConnWithTime := w.pool.connChan.buf

/-- Replace the contents of the channel buffer. -/
def World.setBuf (w : World) (q : List ConnWithTime) : World :=
  { w with pool := { w.pool with connChan := { w.pool.connChan with buf := q } } }

/-- Record one method call on a resource. -/
def World.logEvent (w : World) (e : Event) : World :=
  { w with log := w.log ++ [e] }

/-- Record one factory invocation. -/
def World.countCall (w : World) : World :=
  { w with made := w.made + 1 }

/-- One second, as a `time.Duration`. -/
def Second : Int := 1000000000

/-! ## Channel primitives -/

/-- Largest size `make(chan *ConnWithTime, n)` accepts on a 64-bit platform.  The runtime
panics with `makechan: size out of range` when the buffer, of eight bytes per element,
exceeds `maxAlloc` (`1 <<48`) less the size of the channel header (112 bytes here; it is
96 to 112 bytes depending on the Go release): the largest size is `(2^48 - 112) / 8`,
which is `2^45 - 14`.  An allocation the runtime accepts is taken to succeed: memory is
not bounded otherwise. -/
def maxChanSize : Int := 35184372088818

/-- Channel creation `make(chan *ConnWithTime, n)`; a negative size and a size beyond
`maxChanSize` panic (`none`). -/
def makeChan (n : Int) : Option Chan :=
  if n < 0 ∨ maxChanSize < n then none
  else some { buf := [], capacity := n.toNat, closed := false }

/-- Send statement `cp.connChan <- e`. -/
def sendTo (w : World) (e : ConnWithTime) : Outcome World :=
  if w.pool.connChan.closed then Outcome.panicked
  else if w.pool.connChan.buf.length < w.pool.connChan.capacity then
    Outcome.ret (w.setBuf (w.pool.connChan.buf ++ [e]))
  else Outcome.block w

/-! ## Options -/

/-- Option value carrying a capacity. -/
structure connPoolWithCap where
  cap : Int
deriving DecidableEq, Repr

/-- Option value carrying a timeout. -/
structure connPoolWithTimeOut where
  timeOut : Int
deriving DecidableEq, Repr

/-- Constructor `WithCap`; `numCPU` is the value of `runtime.NumCPU()`. -/
def WithCap (numCPU : Int) (capNum : Int) : connPoolWithCap :=
  { cap := if capNum < 0 then numCPU else capNum }

/-- Constructor `WithTimeOut`. -/
def WithTimeOut (t : Int) : connPoolWithTimeOut :=
  { timeOut := if t < 0 then 5 * Second else t }

/-- Method `(*connPoolWithCap).Apply`: sets `cap` and makes a new channel of that size. -/
def connPoolWithCap.Apply (c : connPoolWithCap) (pool : ConnPool) : Option ConnPool :=
  let pool1 := { pool with cap := c.cap }
  match makeChan pool1.cap with
  | none => none
  | some ch => some { pool1 with connChan := ch }

/-- Method `(*connPoolWithTimeOut).Apply`. -/
def connPoolWithTimeOut.Apply (c : connPoolWithTimeOut) (pool : ConnPool) : ConnPool :=
  { pool with connTimeOut := c.timeOut }

/-- The two implementations of the interface `ConnPoolOption` in the package. -/
inductive ConnPoolOption where
  | ofCap (c : connPoolWithCap)
  | ofTimeOut (c : connPoolWithTimeOut)
deriving DecidableEq, Repr

/-- Interface call `opt.Apply(cp)`; `none` when it panics. -/
def ConnPoolOption.Apply : ConnPoolOption → ConnPool → Option ConnPool
  | ConnPoolOption.ofCap c, pool => c.Apply pool
  | ConnPoolOption.ofTimeOut c, pool => some (c.Apply pool)

/-- Loop `for _, opt := range opts { opt.Apply(cp) }`. -/
def applyOpts : List ConnPoolOption → ConnPool → Option ConnPool
  | [], pool => some pool
  | o :: rest, pool =>
    match o.Apply pool with
    | none => none
    | some pool1 => applyOpts rest pool1

/-- The capacity an option value carries is one `make` accepts for a channel. -/
def ConnPoolOption.InRange : ConnPoolOption → Prop
  | ConnPoolOption.ofCap c => 0 ≤ c.cap ∧ c.cap ≤ maxChanSize
  | ConnPoolOption.ofTimeOut _ => True

/-- An option value obtained from one of the public constructors. -/
def ConnPoolOption.FromAPI (numCPU : Int) (o : ConnPoolOption) : Prop :=
  (∃ n, o = ConnPoolOption.ofCap (WithCap numCPU n)) ∨
  (∃ t, o = ConnPoolOption.ofTimeOut (WithTimeOut t))

/-! ## Construction -/

/-- Warm-up loop of `NewConnPool`: `n` iterations are left, `i` is the loop index,
`clock i` the value of `time.Now()` in iteration `i`. -/
def warm (clock : Nat → Int) : Nat → Nat → World → Outcome World
  | 0, _, w => Outcome.ret w
  | n + 1, i, w =>
    match w.pool.factory w.made with
    | none => warm clock n (i + 1) w.countCall
    | some c =>
      match sendTo w.countCall { conn := c, time := clock i } with
      | Outcome.ret w1 => warm clock n (i + 1) w1
      | Outcome.block wb => Outcome.block wb
      | Outcome.panicked => Outcome.panicked

/-- Function `NewConnPool`. -/
def NewConnPool (numCPU : Int) (clock : Nat → Int) (factory : Factory)
    (opts : List ConnPoolOption) : Outcome World :=
  match makeChan numCPU with
  | none => Outcome.panicked
  | some ch =>
    match applyOpts opts
        { connChan := ch, factory := factory, closed := false,
          connTimeOut := 5 * Second, cap := numCPU } with
    | none => Outcome.panicked
    | some cp => warm clock cp.cap.toNat 0 { pool := cp, made := 0, log := [] }

/-! ## Get -/

/-- The `for { select { ... } }` loop of `Get` while the clock stands at `now`; the first
argument is the content of the channel buffer, from which every receive takes the head.
The loop with a clock that runs is `getLoopAt`. -/
def getLoop (now : Int) (ping : Nat → Bool) : List ConnWithTime → World → Outcome (World × Conn)
  | [], w =>
    if w.pool.connChan.closed then Outcome.ret (w, Conn.nil)
    else
      match w.pool.factory w.made with
      | none => Outcome.ret (w.countCall, Conn.nil)
      | some c => Outcome.ret (w.countCall, c)
  | e :: rest, w =>
    let w1 := w.setBuf rest
    if now - e.time > w1.pool.connTimeOut then
      match e.conn with
      | Conn.nil => Outcome.panicked
      | Conn.ref id => getLoop now ping rest (w1.logEvent (Event.close id))
    else
      match e.conn with
      | Conn.nil => Outcome.panicked
      | Conn.ref id =>
        if ping id then Outcome.ret (w1.logEvent (Event.ping id), Conn.ref id)
        else getLoop now ping rest ((w1.logEvent (Event.ping id)).logEvent (Event.close id))

/-- Method `(*ConnPool).Get`, called at clock value `now`, the clock standing still during
the call. -/
def Get (now : Int) (ping : Nat → Bool) (w : World) : Outcome (World × Conn) :=
  if w.pool.closed then Outcome.ret (w, Conn.nil)
  else getLoop now ping w.pool.connChan.buf w

/-! ## Put -/

/-- Method `(*ConnPool).Put`, called at clock value `now`. -/
def Put (now : Int) (conn : Conn) (w : World) : Outcome World :=
  if w.pool.closed then Outcome.ret w
  else if (w.pool.connChan.buf.length : Int) ≥ w.pool.cap then
    match conn with
    | Conn.nil => Outcome.panicked
    | Conn.ref id => sendTo (w.logEvent (Event.close id)) { conn := conn, time := now }
  else sendTo w { conn := conn, time := now }

/-! ## Close -/

/-- Loop `for conn := range cp.connChan { _ = conn.conn.Close() }` on the closed channel. -/
def drain : List ConnWithTime → World → Outcome World
  | [], w => Outcome.ret w
  | e :: rest, w =>
    match e.conn with
    | Conn.nil => Outcome.panicked
    | Conn.ref id => drain rest ((w.setBuf rest).logEvent (Event.close id))

/-- Method `(*ConnPool).Close`. -/
def Close (w : World) : Outcome World :=
  if w.pool.closed then Outcome.ret w
  else
    let w1 : World := { w with pool := { w.pool with closed := true } }
    if w1.pool.connChan.closed then Outcome.panicked
    else
      let w2 : World :=
        { w1 with pool := { w1.pool with connChan := { w1.pool.connChan with closed := true } } }
      drain w2.pool.connChan.buf w2

/-! ## Sequential clients -/

/-- Call a sequential client makes on the pool, with the clock value of the call and,
for `Get`, what `Ping` answers during it. -/
inductive Op where
  | get (now : Int) (ping : Nat → Bool)
  | put (now : Int) (conn : Conn)
  | close

/-- Effect of one call on the world, the value returned by `Get` dropped. -/
def step : Op → World → Outcome World
  | Op.get now ping, w =>
    match Get now ping w with
    | Outcome.ret r => Outcome.ret r.1
    | Outcome.block wb => Outcome.block wb
    | Outcome.panicked => Outcome.panicked
  | Op.put now conn, w => Put now conn w
  | Op.close, w => Close w

/-- Worlds a sequential client can reach: the pool as `NewConnPool` returns it, then any
number of calls, each made after the previous one has returned. -/
inductive Reachable (numCPU : Int) (clock : Nat → Int) (factory : Factory)
    (opts : List ConnPoolOption) : World → Prop where
  | init (w : World) :
      NewConnPool numCPU clock factory opts = Outcome.ret w →
      Reachable numCPU clock factory opts w
  | next (w w1 : World) (op : Op) :
      Reachable numCPU clock factory opts w → step op w = Outcome.ret w1 →
      Reachable numCPU clock factory opts w1

/-- Run `Close` `n` times in a row. -/
def closeTimes : Nat → World → Outcome World
  | 0, w => Outcome.ret w
  | n + 1, w =>
    match Close w with
    | Outcome.ret w1 => closeTimes n w1
    | Outcome.block wb => Outcome.block wb
    | Outcome.panicked => Outcome.panicked

/-! ## Vocabulary of the statements -/

/-- Neither the flag nor the channel says the pool was closed. -/
def World.isOpen (w : World) : Prop :=
  w.pool.closed = false ∧ w.pool.connChan.closed = false

/-- No buffered entry holds the nil value. -/
def NoNil (q : List ConnWithTime) : Prop := ∀ e ∈ q, e.conn ≠ Conn.nil

/-- One `Close` call per entry, in queue order (nothing for a nil value). -/
def closeEvents : List ConnWithTime → List Event
  | [] => []
  | e :: rest =>
    match e.conn with
    | Conn.nil => closeEvents rest
    | Conn.ref id => Event.close id :: closeEvents rest

/-- Factory whose every product is a new object. -/
def freshFactory : Factory := fun k => some (Conn.ref k)

/-- Factory that hands out one and the same object. -/
def sharedFactory : Factory := fun _ => some (Conn.ref 0)

/-- Factory that always fails. -/
def failingFactory : Factory := fun _ => none

/-- Factory whose second call fails and whose other calls make new objects. -/
def gappyFactory : Factory := fun k => if k = 1 then none else some (Conn.ref k)

/-- Clock that advances by ten between loop iterations. -/
def sampleClock : Nat → Int := fun i => 10 * (i : Int)

/-- Sample open pool: capacity two, timeout 50, two resources buffered at time 0. -/
def sampleOpen : World :=
  { pool :=
      { connChan :=
          { buf := [{ conn := Conn.ref 0, time := 0 }, { conn := Conn.ref 1, time := 0 }],
            capacity := 2, closed := false },
        factory := freshFactory, closed := false, connTimeOut := 50, cap := 2 },
    made := 2, log := [] }

/-- Sample pool after `Close`. -/
def sampleClosed : World :=
  { pool :=
      { connChan := { buf := [], capacity := 2, closed := true },
        factory := freshFactory, closed := true, connTimeOut := 50, cap := 2 },
    made := 2, log := [Event.close 0, Event.close 1] }

/-- Sample open pool with nothing buffered. -/
def sampleEmpty : World :=
  { pool :=
      { connChan := { buf := [], capacity := 2, closed := false },
        factory := freshFactory, closed := false, connTimeOut := 50, cap := 2 },
    made := 2, log := [] }

/-- Pool between the option loop and the warm-up loop: open, nothing buffered, and a
channel whose size is `cap`. -/
def ConnPool.Unfilled (cp : ConnPool) : Prop :=
  0 ≤ cp.cap ∧ cp.closed = false ∧
  cp.connChan = { buf := [], capacity := cp.cap.toNat, closed := false }

/-- Shape every pool of a sequential run has: the channel is as large as `cap` says, holds
no more than that, and is closed exactly when the flag is set. -/
def World.Inv (w : World) : Prop :=
  0 ≤ w.pool.cap ∧ w.pool.connChan.capacity = w.pool.cap.toNat ∧
  w.buf.length ≤ w.pool.connChan.capacity ∧ w.pool.connChan.closed = w.pool.closed

/-- Entries made from the successful ones among `n` factory calls, the first of them being
call number `m` made in loop iteration `i`, in call order. -/
def created (clock : Nat → Int) (factory : Factory) (m i n : Nat) : List ConnWithTime :=
  (List.range n).filterMap
    (fun j => (factory (m + j)).map (fun c => { conn := c, time := clock (i + j) }))

/-- Whether `Get` discards an entry it has popped: its resource is stale or fails the
ping (a nil value makes `Get` panic instead). -/
def discards (now timeout : Int) (ping : Nat → Bool) (e : ConnWithTime) : Bool :=
  match e.conn with
  | Conn.nil => false
  | Conn.ref id => decide (now - e.time > timeout) || !ping id

/-- Calls `Get` makes on the resources of entries it discards, in order: a stale resource
is closed unpinged, a fresh one is pinged and then closed. -/
def discardEvents (now timeout : Int) : List ConnWithTime → List Event
  | [] => []
  | e :: rest =>
    match e.conn with
    | Conn.nil => discardEvents now timeout rest
    | Conn.ref id =>
      (if now - e.time > timeout then [Event.close id] else [Event.ping id, Event.close id])
        ++ discardEvents now timeout rest

/-- How `Get` ends once it has discarded entries, with calls `devs` on their resources,
and the entries in the last argument are what the channel still holds. -/
def finish (w : World) (devs : List Event) : List ConnWithTime → Outcome (World × Conn)
  | [] =>
    if w.pool.connChan.closed then
      Outcome.ret ({ w.setBuf [] with log := w.log ++ devs }, Conn.nil)
    else
      match w.pool.factory w.made with
      | none => Outcome.ret ({ w.setBuf [] with log := w.log ++ devs, made := w.made + 1 }, Conn.nil)
      | some c => Outcome.ret ({ w.setBuf [] with log := w.log ++ devs, made := w.made + 1 }, c)
  | e :: post =>
    match e.conn with
    | Conn.nil => Outcome.panicked
    | Conn.ref id =>
      Outcome.ret ({ w.setBuf post with log := w.log ++ devs ++ [Event.ping id] }, Conn.ref id)

/-- Constructor call written by the caller of `NewConnPool`: `WithCap(capNum)` or
`WithTimeOut(t)`. -/
inductive OptCall where
  | withCap (capNum : Int)
  | withTimeOut (t : Int)
deriving DecidableEq, Repr

/-- Option value a constructor call evaluates to. -/
def OptCall.build (numCPU : Int) : OptCall → ConnPoolOption
  | OptCall.withCap n => ConnPoolOption.ofCap (WithCap numCPU n)
  | OptCall.withTimeOut t => ConnPoolOption.ofTimeOut (WithTimeOut t)

/-- Arguments of the `WithCap` calls of a list, in order. -/
def capArgs : List OptCall → List Int
  | [] => []
  | OptCall.withCap n :: rest => n :: capArgs rest
  | OptCall.withTimeOut _ :: rest => capArgs rest

/-- Arguments of the `WithTimeOut` calls of a list, in order. -/
def timeOutArgs : List OptCall → List Int
  | [] => []
  | OptCall.withCap _ :: rest => timeOutArgs rest
  | OptCall.withTimeOut t :: rest => t :: timeOutArgs rest

/-- Capacity in the words of the specification: the normalized argument of the last
`WithCap` (`NumCPU` when it is negative), and `NumCPU` when there is no `WithCap`. -/
def specCap (numCPU : Int) (calls : List OptCall) : Int :=
  match (capArgs calls).getLast? with
  | none => numCPU
  | some n => if n < 0 then numCPU else n

/-- Timeout in the words of the specification: the normalized argument of the last
`WithTimeOut` (five seconds when it is negative), and five seconds when there is none. -/
def specTimeOut (calls : List OptCall) : Int :=
  match (timeOutArgs calls).getLast? with
  | none => 5 * Second
  | some d => if d < 0 then 5 * Second else d

/-- Every capacity the construction makes a channel for, that is `NumCPU` and the
argument of every `WithCap` call, is a size `make` accepts. -/
def capsInRange (numCPU : Int) (calls : List OptCall) : Prop :=
  0 ≤ numCPU ∧ numCPU ≤ maxChanSize ∧ ∀ n ∈ capArgs calls, n ≤ maxChanSize

/-- One millisecond, as a `time.Duration`. -/
def Millisecond : Int := 1000000

/-- Factory that always succeeds, its `k`-th product being the object `ids k`. -/
def factoryOf (ids : Nat → Nat) : Factory := fun k => some (Conn.ref (ids k))

/-- World of the scenario with capacity two and a timeout of 50 ms: an open pool with the
given buffer, number of factory calls and record of calls on resources. -/
def scenarioWorld (ids : Nat → Nat) (q : List ConnWithTime) (made : Nat)
    (log : List Event) : World :=
  { pool :=
      { connChan := { buf := q, capacity := 2, closed := false },
        factory := factoryOf ids, closed := false,
        connTimeOut := 50 * Millisecond, cap := 2 },
    made := made, log := log }

/-- Identifier of the object a connection value denotes, if it is not nil. -/
def Conn.id? : Conn → Option Nat
  | Conn.nil => none
  | Conn.ref id => some id

/-- Identifiers of the resources held by the entries of a queue, in queue order. -/
def bufIds (q : List ConnWithTime) : List Nat := q.filterMap (fun e => e.conn.id?)

/-- Resources a caller holds once `Get` has returned `c` to it. -/
def holdAfterGet (c : Conn) (held : List Nat) : List Nat :=
  match c with
  | Conn.nil => held
  | Conn.ref id => id :: held

/-- Runs of clients that put back only what they hold: the world together with the
resources handed out by `Get` and not yet put back.  `Put` is called only with a resource
of that list, which it leaves. -/
inductive Disciplined (numCPU : Int) (clock : Nat → Int) (factory : Factory)
    (opts : List ConnPoolOption) : World → List Nat → Prop where
  | init (w : World) :
      NewConnPool numCPU clock factory opts = Outcome.ret w →
      Disciplined numCPU clock factory opts w []
  | get (w w1 : World) (held : List Nat) (now : Int) (ping : Nat → Bool) (c : Conn) :
      Disciplined numCPU clock factory opts w held →
      Get now ping w = Outcome.ret (w1, c) →
      Disciplined numCPU clock factory opts w1 (holdAfterGet c held)
  | put (w w1 : World) (held : List Nat) (now : Int) (id : Nat) :
      Disciplined numCPU clock factory opts w held → id ∈ held →
      Put now (Conn.ref id) w = Outcome.ret w1 →
      Disciplined numCPU clock factory opts w1 (held.erase id)
  | close (w w1 : World) (held : List Nat) :
      Disciplined numCPU clock factory opts w held → Close w = Outcome.ret w1 →
      Disciplined numCPU clock factory opts w1 held

/-- The factory never produces the same object twice. -/
def DistinctProducts (factory : Factory) : Prop :=
  ∀ j k id, factory j = some (Conn.ref id) → factory k = some (Conn.ref id) → j = k

/-- Ownership bookkeeping of a run: the resources buffered and the resources held by
callers are pairwise distinct, and each is a product of a factory call already made. -/
def Owned (factory : Factory) (w : World) (held : List Nat) : Prop :=
  w.pool.factory = factory ∧ (bufIds w.buf ++ held).Nodup ∧
  ∀ id ∈ bufIds w.buf ++ held, ∃ k, k < w.made ∧ factory k = some (Conn.ref id)

/-- Factory whose third call fails and whose other calls make new objects. -/
def failsThird : Factory := fun k => if k = 2 then none else some (Conn.ref k)

/-- Run a list of calls one after the other; a call that waits or panics ends the run. -/
def runOps : List Op → World → Outcome World
  | [], w => Outcome.ret w
  | op :: rest, w =>
    match step op w with
    | Outcome.ret w1 => runOps rest w1
    | Outcome.block wb => Outcome.block wb
    | Outcome.panicked => Outcome.panicked

/-- Whether a call is a `Put` of the nil value. -/
def Op.putsNil : Op → Bool
  | Op.put _ Conn.nil => true
  | _ => false

/-- Shape of the worlds of runs in which nil is never put and never produced: the shape
`World.Inv`, no nil value buffered, and a factory whose successful calls return objects. -/
def World.Safe (w : World) : Prop :=
  w.Inv ∧ NoNil w.buf ∧ ∀ k, w.pool.factory k ≠ some Conn.nil

/-- An entry qualifies for being handed out by `Get` at `now`: its age is at most the
timeout and the `Ping` of its resource succeeds. -/
def qualifies (now timeout : Int) (ping : Nat → Bool) (e : ConnWithTime) : Bool :=
  decide (now - e.time ≤ timeout) &&
    (match e.conn with
      | Conn.nil => false
      | Conn.ref id => ping id)

/-- Whether a recorded call is a `Close`. -/
def Event.isClose : Event → Bool
  | Event.ping _ => false
  | Event.close _ => true

/-! ## Get with a clock that runs during the call

`time.Since(connValue.time)` reads the clock anew each time `Get` has taken an entry from
the channel.  `clock k` is the value of the `k`-th reading of one call, counted from
zero; the iteration whose `select` takes the `default` branch reads no clock. -/

/-- The `for { select { ... } }` loop of `Get`, the clock being read in every iteration
that receives an entry; the first argument counts the readings made so far. -/
def getLoopAt (clock : Nat → Int) (ping : Nat → Bool) :
    Nat → List ConnWithTime → World → Outcome (World × Conn)
  | _, [], w =>
    if w.pool.connChan.closed then Outcome.ret (w, Conn.nil)
    else
      match w.pool.factory w.made with
      | none => Outcome.ret (w.countCall, Conn.nil)
      | some c => Outcome.ret (w.countCall, c)
  | k, e :: rest, w =>
    let w1 := w.setBuf rest
    if clock k - e.time > w1.pool.connTimeOut then
      match e.conn with
      | Conn.nil => Outcome.panicked
      | Conn.ref id => getLoopAt clock ping (k + 1) rest (w1.logEvent (Event.close id))
    else
      match e.conn with
      | Conn.nil => Outcome.panicked
      | Conn.ref id =>
        if ping id then Outcome.ret (w1.logEvent (Event.ping id), Conn.ref id)
        else getLoopAt clock ping (k + 1) rest
          ((w1.logEvent (Event.ping id)).logEvent (Event.close id))

/-- Method `(*ConnPool).Get`, whose `k`-th reading of the clock gives `clock k`.
`Get now` is the call during which the clock stands at `now`. -/
def GetAt (clock : Nat → Int) (ping : Nat → Bool) (w : World) : Outcome (World × Conn) :=
  if w.pool.closed then Outcome.ret (w, Conn.nil)
  else getLoopAt clock ping 0 w.pool.connChan.buf w

/-- Calls `Get` makes on the resources of entries it discards one after the other, the
first of them at clock reading number `k`: a resource that is stale at its reading is
closed unpinged, any other is pinged and then closed. -/
def discardEventsAt (clock : Nat → Int) (timeout : Int) : Nat → List ConnWithTime → List Event
  | _, [] => []
  | k, e :: rest =>
    match e.conn with
    | Conn.nil => discardEventsAt clock timeout (k + 1) rest
    | Conn.ref id =>
      (if clock k - e.time > timeout then [Event.close id] else [Event.ping id, Event.close id])
        ++ discardEventsAt clock timeout (k + 1) rest

/-! ## DelSpace (`util/del_space.go`)

A Go string is its list of bytes.  The `range` clause decodes it rune by rune; `byte(arg)`
keeps the low eight bits of a rune; `strings.Split` cuts the byte string at every space.
The buffer `BufGet` hands out is empty: the pool's `New` makes an empty buffer and
`BufPut` resets a buffer before it goes back. -/

/-- Rune that `range` yields for a byte that starts no valid encoding. -/
def RuneError : Nat := 0xFFFD

/-- First rune of a non-empty string and the number of bytes it takes, as the `range`
clause decodes it: a malformed encoding yields `RuneError` and takes one byte. -/
def decodeRune : List Nat → Nat × Nat
  | [] => (RuneError, 1)
  | b0 :: rest =>
    if b0 < 0x80 then (b0, 1)
    else if 0xC2 ≤ b0 ∧ b0 ≤ 0xDF then
      match rest with
      | b1 :: _ =>
        if 0x80 ≤ b1 ∧ b1 ≤ 0xBF then (b0 % 32 * 64 + b1 % 64, 2) else (RuneError, 1)
      | [] => (RuneError, 1)
    else if 0xE0 ≤ b0 ∧ b0 ≤ 0xEF then
      match rest with
      | b1 :: b2 :: _ =>
        if (if b0 = 0xE0 then 0xA0 else 0x80) ≤ b1 ∧ b1 ≤ (if b0 = 0xED then 0x9F else 0xBF) ∧
            0x80 ≤ b2 ∧ b2 ≤ 0xBF then
          (b0 % 16 * 4096 + b1 % 64 * 64 + b2 % 64, 3)
        else (RuneError, 1)
      | _ => (RuneError, 1)
    else if 0xF0 ≤ b0 ∧ b0 ≤ 0xF4 then
      match rest with
      | b1 :: b2 :: b3 :: _ =>
        if (if b0 = 0xF0 then 0x90 else 0x80) ≤ b1 ∧ b1 ≤ (if b0 = 0xF4 then 0x8F else 0xBF) ∧
            0x80 ≤ b2 ∧ b2 ≤ 0xBF ∧ 0x80 ≤ b3 ∧ b3 ≤ 0xBF then
          (b0 % 8 * 262144 + b1 % 64 * 4096 + b2 % 64 * 64 + b3 % 64, 4)
        else (RuneError, 1)
      | _ => (RuneError, 1)
    else (RuneError, 1)

/-- Runes the `range` clause yields, with a bound on the number of iterations. -/
def runesFuel : Nat → List Nat → List Nat
  | 0, _ => []
  | _ + 1, [] => []
  | fuel + 1, b0 :: rest =>
    (decodeRune (b0 :: rest)).1 ::
      runesFuel fuel (rest.drop ((decodeRune (b0 :: rest)).2 - 1))

/-- Runes the `range` clause yields for a string: every iteration takes at least one
byte, so as many iterations as the string has bytes are enough. -/
def runes (s : List Nat) : List Nat := runesFuel s.length s

/-- Body of the `for` loop of `DelSpace`, over the runes still to come, with the value of
`flag` and the content of the buffer. -/
def delLoop : List Nat → Bool → List Nat → List Nat
  | [], _, buf => buf
  | arg :: rest, flag, buf =>
    if arg ≠ 32 then delLoop rest false (buf ++ [arg % 256])
    else if !flag then delLoop rest true (buf ++ [arg % 256])
    else delLoop rest true buf

/-- Library function `strings.Split(s, " ")` on a byte string. -/
def splitSpace : List Nat → List (List Nat)
  | [] => [[]]
  | b :: rest =>
    if b = 32 then [] :: splitSpace rest
    else
      match splitSpace rest with
      | [] => [[b]]
      | x :: xs => (b :: x) :: xs

/-- Function `DelSpace`. -/
def DelSpace (args : List Nat) : List (List Nat) :=
  splitSpace (delLoop (runes args) false [])

/-- Whether a byte string holds two space characters next to each other. -/
def adjacentSpaces : List Nat → Bool
  | a :: b :: rest => (a == 32 && b == 32) || adjacentSpaces (b :: rest)
  | _ => false

/-! ## Basic facts -/

/-- A channel creation that does not panic was given a size within range and yields an
empty open channel of that size. -/
theorem makeChan_some {n : Int} {ch : Chan} (h : makeChan n = some ch) :
    0 ≤ n ∧ n ≤ maxChanSize ∧ ch = { buf := [], capacity := n.toNat, closed := false } := by
  unfold makeChan at h
  split_ifs at h with hc
  injection h with h
  exact ⟨by omega, by omega, h.symm⟩

/-- A channel creation with a size within range does not panic. -/
theorem makeChan_of_range {n : Int} (h0 : 0 ≤ n) (h1 : n ≤ maxChanSize) :
    makeChan n = some { buf := [], capacity := n.toNat, closed := false } := by
  unfold makeChan
  rw [if_neg]
  omega

@[simp]
theorem World.setBuf_buf (w : World) (q : List ConnWithTime) : (w.setBuf q).buf = q := rfl

@[simp]
theorem World.setBuf_log (w : World) (q : List ConnWithTime) : (w.setBuf q).log = w.log := rfl

@[simp]
theorem World.setBuf_made (w : World) (q : List ConnWithTime) : (w.setBuf q).made = w.made := rfl

@[simp]
theorem World.logEvent_buf (w : World) (e : Event) : (w.logEvent e).buf = w.buf := rfl

@[simp]
theorem World.logEvent_pool (w : World) (e : Event) : (w.logEvent e).pool = w.pool := rfl

@[simp]
theorem World.logEvent_log (w : World) (e : Event) : (w.logEvent e).log = w.log ++ [e] := rfl

@[simp]
theorem World.logEvent_made (w : World) (e : Event) : (w.logEvent e).made = w.made := rfl

@[simp]
theorem World.countCall_pool (w : World) : w.countCall.pool = w.pool := rfl

@[simp]
theorem World.countCall_buf (w : World) : w.countCall.buf = w.buf := rfl

@[simp]
theorem World.countCall_made (w : World) : w.countCall.made = w.made + 1 := rfl

@[simp]
theorem World.countCall_log (w : World) : w.countCall.log = w.log := rfl

theorem World.setBuf_self (w : World) : w.setBuf w.buf = w := rfl

/-! ## Put on a pool at capacity -/

/-- On an open pool whose channel is full, `Put` closes the resource when the length has
reached `cap`, and in any case its send does not complete. -/
theorem Put_full_channel (now : Int) (id : Nat) (w : World) (hopen : w.isOpen)
    (hfull : w.pool.connChan.capacity ≤ w.buf.length)
    (hcap : (w.buf.length : Int) ≥ w.pool.cap) :
    Put now (Conn.ref id) w = Outcome.block (w.logEvent (Event.close id)) := by
  obtain ⟨h1, h2⟩ := hopen
  have hfull1 : ¬ (w.pool.connChan.buf.length < w.pool.connChan.capacity) := by
    simpa [World.buf] using hfull
  have hcap1 : w.pool.cap ≤ (w.pool.connChan.buf.length : Int) := by
    simpa [World.buf] using hcap
  simp [Put, sendTo, h1, h2, hfull1, hcap1]

/-- C1, the code at the failing inputs.  On the pool built by
`NewConnPool(factory, WithCap(1))`, whose holding area holds one resource, `Put(conn)`
calls `conn.Close()` and then never returns: its send waits on the full channel.  The
same happens on the pool built with `WithCap(0)`, whose channel is unbuffered. -/
theorem Put_at_capacity_blocks :
    (∃ w0 wb,
      NewConnPool 4 (fun _ => 0) freshFactory [ConnPoolOption.ofCap (WithCap 4 1)]
        = Outcome.ret w0 ∧
      w0.pool.closed = false ∧ w0.pool.cap = 1 ∧
      w0.buf = [{ conn := Conn.ref 0, time := 0 }] ∧
      Put 10 (Conn.ref 7) w0 = Outcome.block wb ∧
      wb.log = [Event.close 7] ∧ wb.buf = w0.buf) ∧
    (∃ w0 wb,
      NewConnPool 4 (fun _ => 0) freshFactory [ConnPoolOption.ofCap (WithCap 4 0)]
        = Outcome.ret w0 ∧
      w0.pool.closed = false ∧ w0.pool.cap = 0 ∧ w0.buf = [] ∧
      Put 10 (Conn.ref 7) w0 = Outcome.block wb ∧
      wb.log = [Event.close 7] ∧ wb.buf = w0.buf) :=
  ⟨⟨_, _, rfl, rfl, rfl, rfl, rfl, rfl, rfl⟩, ⟨_, _, rfl, rfl, rfl, rfl, rfl, rfl, rfl⟩⟩

/-! ## Calls on a closed pool -/

/-- On a pool whose `closed` flag is set, `Get` takes its first `return`. -/
theorem Get_of_closed (now : Int) (ping : Nat → Bool) (w : World)
    (hclosed : w.pool.closed = true) :
    Get now ping w = Outcome.ret (w, Conn.nil) := by
  simp [Get, hclosed]

/-- C4.  On a pool whose `closed` flag is set, `Get` returns nil and leaves the world as
it was: the pool, the number of factory calls and the record of `Ping` and `Close` calls
are all unchanged. -/
theorem Get_closed (now : Int) (ping : Nat → Bool) (w : World)
    (hclosed : w.pool.closed = true) :
    Get now ping w = Outcome.ret (w, Conn.nil) :=
  Get_of_closed now ping w hclosed

/-- Witness of C4 on the sample closed pool. -/
theorem Get_closed_witness :
    sampleClosed.pool.closed = true ∧
    Get 7 (fun _ => true) sampleClosed = Outcome.ret (sampleClosed, Conn.nil) :=
  ⟨rfl, Get_closed 7 (fun _ => true) sampleClosed rfl⟩

/-- On a pool whose `closed` flag is set, `Put` returns at once and changes nothing. -/
theorem Put_of_closed (now : Int) (conn : Conn) (w : World) (hclosed : w.pool.closed = true) :
    Put now conn w = Outcome.ret w := by
  simp [Put, hclosed]

/-! ## Close -/

/-- Draining a buffer without nil values returns, with the buffer empty and one `Close`
recorded per entry. -/
theorem drain_noNil : ∀ (q : List ConnWithTime) (w : World), w.buf = q → NoNil q →
    drain q w = Outcome.ret { w.setBuf [] with log := w.log ++ closeEvents q } := by
  intro q
  induction q with
  | nil =>
    intro w hw _
    have h : w.setBuf [] = w := by rw [← hw]; exact World.setBuf_self w
    simp [drain, closeEvents, h]
  | cons e rest ih =>
    intro w _ hnn
    have hrest : NoNil rest := fun x hx => hnn x (List.mem_cons_of_mem _ hx)
    have he : e.conn ≠ Conn.nil := hnn e (List.mem_cons_self _ _)
    cases hc : e.conn with
    | nil => exact absurd hc he
    | ref id =>
      simp only [drain, hc, closeEvents]
      rw [ih ((w.setBuf rest).logEvent (Event.close id)) rfl hrest]
      simp [World.setBuf, World.logEvent]

/-- A drain that returns met no nil value. -/
theorem drain_ret_inv : ∀ (q : List ConnWithTime) (w w1 : World),
    drain q w = Outcome.ret w1 → NoNil q := by
  intro q
  induction q with
  | nil => intro w w1 _ x hx; cases hx
  | cons e rest ih =>
    intro w w1 h
    cases hc : e.conn with
    | nil => simp [drain, hc] at h
    | ref id =>
      simp only [drain, hc] at h
      intro x hx
      rcases List.mem_cons.1 hx with rfl | hx
      · simp [hc]
      · exact ih _ _ h x hx

/-- Closed form of `Close` on an open pool without nil values. -/
theorem Close_of_open (w : World) (hopen : w.isOpen) (hnn : NoNil w.buf) :
    Close w = Outcome.ret
      { pool := { w.pool with closed := true,
                              connChan := { w.pool.connChan with buf := [], closed := true } },
        made := w.made, log := w.log ++ closeEvents w.buf } := by
  obtain ⟨h1, h2⟩ := hopen
  simp only [Close, h1, h2]
  simp only [Bool.false_eq_true, if_false]
  exact drain_noNil w.pool.connChan.buf _ rfl hnn

/-- Whenever `Close` returns, the pool is closed; if it was open before, the holding
area is empty afterwards. -/
theorem Close_ret_inv (w w1 : World) (h : Close w = Outcome.ret w1) :
    w1.pool.closed = true ∧ (w.pool.closed = false → w1.buf = [] ∧ NoNil w.buf ∧ w.isOpen) := by
  by_cases hc : w.pool.closed = true
  · simp [Close, hc] at h
    subst h
    exact ⟨hc, fun h0 => by simp [hc] at h0⟩
  · have hc0 : w.pool.closed = false := by simpa using hc
    by_cases hch : w.pool.connChan.closed = true
    · simp [Close, hc0, hch] at h
    · have hch0 : w.pool.connChan.closed = false := by simpa using hch
      have hnn : NoNil w.buf := by
        simp only [Close, hc0, hch0, Bool.false_eq_true, if_false] at h
        exact drain_ret_inv _ _ _ h
      rw [Close_of_open w ⟨hc0, hch0⟩ hnn] at h
      injection h with h
      subst h
      exact ⟨rfl, fun _ => ⟨rfl, hnn, hc0, hch0⟩⟩

/-- C5.  On a pool whose `closed` flag is set, `Put(conn)` returns the world as it was:
no field of the pool changes, nothing is buffered and `conn.Close()` is not called.
When the flag was set by a `Close` call on an open pool, the holding area is empty
before and after the `Put`. -/
theorem Put_closed (now : Int) (conn : Conn) (w : World) (hclosed : w.pool.closed = true) :
    Put now conn w = Outcome.ret w ∧
    ∀ w0 : World, w0.pool.closed = false → Close w0 = Outcome.ret w → w.buf = [] :=
  ⟨Put_of_closed now conn w hclosed, fun w0 h0 hret => ((Close_ret_inv w0 w hret).2 h0).1⟩

/-- Witness of C5: the sample pool after `Close`, and a live resource put back. -/
theorem Put_closed_witness :
    Close sampleOpen = Outcome.ret sampleClosed ∧
    sampleClosed.pool.closed = true ∧
    Put 7 (Conn.ref 5) sampleClosed = Outcome.ret sampleClosed ∧
    sampleClosed.buf = [] :=
  ⟨rfl, rfl, (Put_closed 7 (Conn.ref 5) sampleClosed rfl).1,
    (Put_closed 7 (Conn.ref 5) sampleClosed rfl).2 sampleOpen rfl rfl⟩

/-- Without nil values, the buffered resources are a list of identifiers, and draining
calls `Close` on each of them in order. -/
theorem closeEvents_noNil : ∀ q : List ConnWithTime, NoNil q →
    ∃ ids : List Nat, q.map ConnWithTime.conn = ids.map Conn.ref ∧
      closeEvents q = ids.map Event.close := by
  intro q
  induction q with
  | nil => intro _; exact ⟨[], rfl, rfl⟩
  | cons e rest ih =>
    intro hnn
    obtain ⟨ids, h1, h2⟩ := ih (fun x hx => hnn x (List.mem_cons_of_mem _ hx))
    have he : e.conn ≠ Conn.nil := hnn e (List.mem_cons_self _ _)
    cases hc : e.conn with
    | nil => exact absurd hc he
    | ref id =>
      refine ⟨id :: ids, ?_, ?_⟩
      · simp [hc, h1]
      · simp [closeEvents, hc, h2]

/-- C7 (counterexample).  The pool built with `WithCap(2)` from a factory that hands out
one and the same resource holds that resource in both entries; `Close` on this open pool
calls its `Close` twice, not exactly once. -/
theorem Close_closes_shared_twice :
    ∃ w w1,
      NewConnPool 4 (fun _ => 0) sharedFactory [ConnPoolOption.ofCap (WithCap 4 2)]
        = Outcome.ret w ∧
      w.pool.closed = false ∧ w.pool.connChan.closed = false ∧
      w.buf.map ConnWithTime.conn = [Conn.ref 0, Conn.ref 0] ∧ w.log = [] ∧
      Close w = Outcome.ret w1 ∧
      w1.log = [Event.close 0, Event.close 0] ∧
      w1.log.count (Event.close 0) = 2 :=
  ⟨_, _, rfl, rfl, rfl, rfl, rfl, rfl, rfl, rfl⟩

/-- C7 (amended).  On an open pool whose buffered values are not nil, `Close` returns,
sets `closed`, leaves the holding area empty, calls the factory not at all, and its calls
on resources are exactly one `Close` per buffered entry, in queue order: a resource is
closed as many times as it has entries in the holding area, once when it has one. -/
theorem Close_drains (w : World) (hopen : w.isOpen) (hnn : NoNil w.buf) :
    ∃ (w1 : World) (ids : List Nat),
      Close w = Outcome.ret w1 ∧
      w1.pool.closed = true ∧ w1.buf = [] ∧ w1.made = w.made ∧
      w.buf.map ConnWithTime.conn = ids.map Conn.ref ∧
      w1.log = w.log ++ ids.map Event.close ∧
      ∀ id, (ids.map Event.close).count (Event.close id) = ids.count id := by
  obtain ⟨ids, h1, h2⟩ := closeEvents_noNil w.buf hnn
  refine ⟨_, ids, Close_of_open w hopen hnn, rfl, rfl, rfl, h1, ?_, ?_⟩
  · simp [h2]
  · intro id
    exact List.count_map_of_injective ids Event.close
      (fun a b h => by injection h) id

/-- Witness of C7 (amended) on the sample open pool. -/
theorem Close_drains_witness :
    sampleOpen.isOpen ∧ NoNil sampleOpen.buf ∧
    ∃ (w1 : World) (ids : List Nat),
      Close sampleOpen = Outcome.ret w1 ∧
      w1.pool.closed = true ∧ w1.buf = [] ∧ w1.made = sampleOpen.made ∧
      sampleOpen.buf.map ConnWithTime.conn = ids.map Conn.ref ∧
      w1.log = sampleOpen.log ++ ids.map Event.close ∧
      ∀ id, (ids.map Event.close).count (Event.close id) = ids.count id :=
  have hopen : sampleOpen.isOpen := ⟨rfl, rfl⟩
  have hnn : NoNil sampleOpen.buf := by
    intro e he
    simp [sampleOpen, World.buf] at he
    rcases he with rfl | rfl <;> simp
  ⟨hopen, hnn, Close_drains sampleOpen hopen hnn⟩

/-- Once the flag is set, any number of further `Close` calls returns the same world. -/
theorem closeTimes_of_closed : ∀ (n : Nat) (w : World), w.pool.closed = true →
    closeTimes n w = Outcome.ret w := by
  intro n
  induction n with
  | zero => intro w _; rfl
  | succ n ih =>
    intro w hc
    have h : Close w = Outcome.ret w := by simp [Close, hc]
    simp [closeTimes, h, ih w hc]

/-- C8.  `Close` is idempotent: from any world, two or more `Close` calls in a row end
exactly as one call does, with the same pool and the same record of calls on resources;
and a `Close` called on the world a `Close` has returned changes nothing. -/
theorem Close_idempotent (w : World) (n : Nat) :
    closeTimes (n + 2) w = closeTimes 1 w ∧
    ∀ w1 : World, Close w = Outcome.ret w1 → Close w1 = Outcome.ret w1 := by
  constructor
  · cases h : Close w with
    | ret w1 =>
      have hc := (Close_ret_inv w w1 h).1
      have h1 : closeTimes (n + 1) w1 = Outcome.ret w1 := closeTimes_of_closed (n + 1) w1 hc
      show closeTimes (n + 1 + 1) w = closeTimes 1 w
      simp only [closeTimes, h]
      simpa only [closeTimes] using h1
    | block wb => simp [closeTimes, h]
    | panicked => simp [closeTimes, h]
  · intro w1 h
    have hc := (Close_ret_inv w w1 h).1
    simp [Close, hc]

/-- Witness of C8: three calls against one on the sample open pool, and a second call on
the closed pool. -/
theorem Close_idempotent_witness :
    closeTimes 3 sampleOpen = closeTimes 1 sampleOpen ∧
    closeTimes 1 sampleOpen = Outcome.ret sampleClosed ∧
    Close sampleClosed = Outcome.ret sampleClosed :=
  ⟨(Close_idempotent sampleOpen 1).1, rfl, (Close_idempotent sampleOpen 1).2 sampleClosed rfl⟩

/-! ## Construction -/

theorem created_zero (clock : Nat → Int) (factory : Factory) (m i : Nat) :
    created clock factory m i 0 = [] := rfl

theorem created_succ (clock : Nat → Int) (factory : Factory) (m i n : Nat) :
    created clock factory m i (n + 1) =
      (match factory m with
        | none => []
        | some c => [{ conn := c, time := clock i }]) ++
      created clock factory (m + 1) (i + 1) n := by
  have hfun : (fun j => (factory (m + (j + 1))).map
        (fun c => ({ conn := c, time := clock (i + (j + 1)) } : ConnWithTime))) =
      (fun j => (factory (m + 1 + j)).map
        (fun c => ({ conn := c, time := clock (i + 1 + j) } : ConnWithTime))) := by
    funext j
    rw [show m + (j + 1) = m + 1 + j by omega, show i + (j + 1) = i + 1 + j by omega]
  unfold created
  rw [List.range_succ_eq_map, List.filterMap_cons, List.filterMap_map]
  cases hf : factory m with
  | none => simp [hf, Function.comp_def, hfun]
  | some c => simp [hf, Function.comp_def, hfun]

theorem created_length_le (clock : Nat → Int) (factory : Factory) (m i n : Nat) :
    (created clock factory m i n).length ≤ n := by
  unfold created
  exact (List.length_filterMap_le _ _).trans (by simp)

/-- The warm-up loop on a channel with room for `n` more entries: every iteration calls
the factory, and the successful products are appended in call order. -/
theorem warm_ret (clock : Nat → Int) : ∀ (n i : Nat) (w : World),
    w.pool.connChan.closed = false → w.buf.length + n ≤ w.pool.connChan.capacity →
    warm clock n i w = Outcome.ret
      { w.setBuf (w.buf ++ created clock w.pool.factory w.made i n) with made := w.made + n } := by
  intro n
  induction n with
  | zero =>
    intro i w _ _
    simp only [warm, created_zero, List.append_nil]
    rfl
  | succ n ih =>
    intro i w hch hlen
    rw [created_succ]
    cases hf : w.pool.factory w.made with
    | none =>
      simp only [warm, hf]
      have hcap : w.countCall.pool.connChan.capacity = w.pool.connChan.capacity := rfl
      rw [ih (i + 1) w.countCall hch (by simp only [World.countCall_buf]; omega)]
      simp only [World.countCall_buf, World.countCall_pool, World.countCall_made, List.nil_append]
      congr 1
      simp only [World.setBuf, World.countCall]
      congr 1
      omega
    | some c =>
      have hroom : w.pool.connChan.buf.length < w.pool.connChan.capacity := by
        have : w.pool.connChan.buf.length = w.buf.length := rfl
        omega
      have hsend : sendTo w.countCall { conn := c, time := clock i } =
          Outcome.ret (w.countCall.setBuf (w.pool.connChan.buf ++ [{ conn := c, time := clock i }])) := by
        simp [sendTo, hch, hroom]
      simp only [warm, hf, hsend]
      have hnext := ih (i + 1)
        (w.countCall.setBuf (w.pool.connChan.buf ++ [{ conn := c, time := clock i }])) hch (by
        simp only [World.setBuf_buf, List.length_append, List.length_singleton]
        have : w.pool.connChan.buf.length = w.buf.length := rfl
        have h2 : (w.countCall.setBuf (w.pool.connChan.buf ++ [{ conn := c, time := clock i }])).pool.connChan.capacity
            = w.pool.connChan.capacity := rfl
        omega)
      rw [hnext]
      congr 1
      simp only [World.setBuf, World.countCall, World.buf, List.append_assoc]
      congr 1
      omega

/-! ## Get on an empty holding area -/

/-- On an open pool with nothing buffered, `Get` takes the `default` branch. -/
theorem Get_of_empty (now : Int) (ping : Nat → Bool) (w : World) (hopen : w.isOpen)
    (hempty : w.buf = []) :
    Get now ping w = Outcome.ret (w.countCall, (w.pool.factory w.made).getD Conn.nil) := by
  obtain ⟨h1, h2⟩ := hopen
  have hb : w.pool.connChan.buf = [] := hempty
  simp only [Get, h1, hb, getLoop, h2]
  cases w.pool.factory w.made <;> rfl

/-! ## Get: the loop in closed form -/

theorem finish_logged (w : World) (q : List ConnWithTime) (evs devs : List Event)
    (r : List ConnWithTime) :
    finish { w.setBuf q with log := w.log ++ evs } devs r = finish w (evs ++ devs) r := by
  cases r with
  | nil =>
    simp only [finish, World.setBuf, List.append_assoc]
  | cons e post =>
    simp only [finish, World.setBuf, List.append_assoc]

/-- The loop of `Get` discards the longest run of discardable entries at the head of the
queue and ends on what follows it. -/
theorem getLoop_scan (now : Int) (ping : Nat → Bool) : ∀ (q : List ConnWithTime) (w : World),
    w.buf = q →
    getLoop now ping q w =
      finish w (discardEvents now w.pool.connTimeOut
          (q.takeWhile (discards now w.pool.connTimeOut ping)))
        (q.dropWhile (discards now w.pool.connTimeOut ping)) := by
  intro q
  induction q with
  | nil =>
    intro w hw
    have hsb : w.setBuf [] = w := by rw [← hw]; exact World.setBuf_self w
    simp only [getLoop, List.takeWhile_nil, List.dropWhile_nil, discardEvents, finish,
      List.append_nil, hsb]
    cases w.pool.connChan.closed <;> cases w.pool.factory w.made <;> rfl
  | cons e rest ih =>
    intro w _
    cases hc : e.conn with
    | nil =>
      have hd : discards now w.pool.connTimeOut ping e = false := by simp [discards, hc]
      have htw : (e :: rest).takeWhile (discards now w.pool.connTimeOut ping) = [] := by
        simp [List.takeWhile_cons, hd]
      have hdw : (e :: rest).dropWhile (discards now w.pool.connTimeOut ping) = e :: rest := by
        simp [List.dropWhile_cons, hd]
      rw [htw, hdw]
      simp [getLoop, finish, hc]
    | ref id =>
      by_cases hs : now - e.time > w.pool.connTimeOut
      · have hd : discards now w.pool.connTimeOut ping e = true := by simp [discards, hc, hs]
        have hs1 : now - e.time > (w.setBuf rest).pool.connTimeOut := hs
        have htw : (e :: rest).takeWhile (discards now w.pool.connTimeOut ping) =
            e :: rest.takeWhile (discards now w.pool.connTimeOut ping) := by
          simp [List.takeWhile_cons, hd]
        have hdw : (e :: rest).dropWhile (discards now w.pool.connTimeOut ping) =
            rest.dropWhile (discards now w.pool.connTimeOut ping) := by
          simp [List.dropWhile_cons, hd]
        rw [htw, hdw]
        simp only [getLoop, hc, hs1, if_true, discardEvents, hs]
        rw [ih ((w.setBuf rest).logEvent (Event.close id)) rfl]
        exact finish_logged w rest [Event.close id] _ _
      · have hs1 : ¬ now - e.time > (w.setBuf rest).pool.connTimeOut := hs
        cases hp : ping id with
        | true =>
          have hd : discards now w.pool.connTimeOut ping e = false := by
            simp [discards, hc, hs, hp]
          have htw : (e :: rest).takeWhile (discards now w.pool.connTimeOut ping) = [] := by
            simp [List.takeWhile_cons, hd]
          have hdw : (e :: rest).dropWhile (discards now w.pool.connTimeOut ping) = e :: rest := by
            simp [List.dropWhile_cons, hd]
          rw [htw, hdw]
          simp only [getLoop, hc, hs1, if_false, hp, if_true, finish, discardEvents,
            List.append_nil]
          rfl
        | false =>
          have hd : discards now w.pool.connTimeOut ping e = true := by
            simp [discards, hc, hp]
          have htw : (e :: rest).takeWhile (discards now w.pool.connTimeOut ping) =
              e :: rest.takeWhile (discards now w.pool.connTimeOut ping) := by
            simp [List.takeWhile_cons, hd]
          have hdw : (e :: rest).dropWhile (discards now w.pool.connTimeOut ping) =
              rest.dropWhile (discards now w.pool.connTimeOut ping) := by
            simp [List.dropWhile_cons, hd]
          rw [htw, hdw]
          simp only [getLoop, hc, hs1, if_false, hp, Bool.false_eq_true, discardEvents, hs]
          rw [ih (((w.setBuf rest).logEvent (Event.ping id)).logEvent (Event.close id)) rfl]
          have := finish_logged w rest [Event.ping id, Event.close id]
            (discardEvents now w.pool.connTimeOut
              (rest.takeWhile (discards now w.pool.connTimeOut ping)))
            (rest.dropWhile (discards now w.pool.connTimeOut ping))
          simpa [World.logEvent, World.setBuf] using this

/-- Closed form of `Get` on a pool whose `closed` flag is clear. -/
theorem Get_scan (now : Int) (ping : Nat → Bool) (w : World) (hopen : w.pool.closed = false) :
    Get now ping w =
      finish w (discardEvents now w.pool.connTimeOut
          (w.buf.takeWhile (discards now w.pool.connTimeOut ping)))
        (w.buf.dropWhile (discards now w.pool.connTimeOut ping)) := by
  simp only [Get, hopen, Bool.false_eq_true, if_false]
  exact getLoop_scan now ping w.pool.connChan.buf w rfl

theorem dropWhile_head_false {p : ConnWithTime → Bool} {l : List ConnWithTime}
    {e : ConnWithTime} {post : List ConnWithTime} (h : l.dropWhile p = e :: post) :
    p e = false := by
  have h1 := List.head?_dropWhile_not p l
  rw [h] at h1
  simpa using h1

/-- An entry that `Get` discards holds an object that is stale or fails the ping. -/
theorem discards_true {now timeout : Int} {ping : Nat → Bool} {e : ConnWithTime}
    (h : discards now timeout ping e = true) :
    ∃ id, e.conn = Conn.ref id ∧ (now - e.time > timeout ∨ ping id = false) := by
  unfold discards at h
  cases hc : e.conn with
  | nil => simp [hc] at h
  | ref id =>
    refine ⟨id, rfl, ?_⟩
    simp only [hc, Bool.or_eq_true, decide_eq_true_eq, Bool.not_eq_true'] at h
    exact h

/-- The resource of every discarded entry is closed. -/
theorem close_mem_discardEvents (now timeout : Int) : ∀ (disc : List ConnWithTime)
    (e : ConnWithTime) (id : Nat), e ∈ disc → e.conn = Conn.ref id →
    Event.close id ∈ discardEvents now timeout disc := by
  intro disc
  induction disc with
  | nil => intro e id he; cases he
  | cons x rest ih =>
    intro e id he hc
    rcases List.mem_cons.1 he with rfl | he
    · simp only [discardEvents, hc]
      split_ifs <;> simp
    · have := ih e id he hc
      cases hx : x.conn with
      | nil => simpa [discardEvents, hx] using this
      | ref j =>
        simp only [discardEvents, hx]
        exact List.mem_append_right _ this

/-- What a returning `Get` has done on a pool whose `closed` flag is clear: it has discarded
a run `disc` of entries at the head of the queue, and then either handed out the next
entry, which is fresh and answers the ping, or found the channel empty. -/
theorem Get_ret_cases (now : Int) (ping : Nat → Bool) (w w1 : World) (c : Conn)
    (hopen : w.pool.closed = false) (h : Get now ping w = Outcome.ret (w1, c)) :
    ∃ disc rest : List ConnWithTime,
      w.buf = disc ++ rest ∧
      (∀ x ∈ disc, discards now w.pool.connTimeOut ping x = true) ∧
      w1.pool = (w.setBuf w1.buf).pool ∧
      ((∃ (e0 : ConnWithTime) (id : Nat),
          rest = e0 :: w1.buf ∧ e0.conn = Conn.ref id ∧ c = Conn.ref id ∧
          now - e0.time ≤ w.pool.connTimeOut ∧ ping id = true ∧ w1.made = w.made ∧
          w1.log = w.log ++ discardEvents now w.pool.connTimeOut disc ++ [Event.ping id]) ∨
       (rest = [] ∧ w1.buf = [] ∧
          w1.log = w.log ++ discardEvents now w.pool.connTimeOut disc ∧
          ((w.pool.connChan.closed = true ∧ c = Conn.nil ∧ w1.made = w.made) ∨
           (w.pool.connChan.closed = false ∧ w1.made = w.made + 1 ∧
              c = (w.pool.factory w.made).getD Conn.nil)))) := by
  rw [Get_scan now ping w hopen] at h
  refine ⟨w.buf.takeWhile (discards now w.pool.connTimeOut ping),
    w.buf.dropWhile (discards now w.pool.connTimeOut ping),
    (List.takeWhile_append_dropWhile _ _).symm, fun x hx => List.mem_takeWhile_imp hx, ?_⟩
  cases hdw : w.buf.dropWhile (discards now w.pool.connTimeOut ping) with
  | nil =>
    rw [hdw] at h
    simp only [finish] at h
    cases hch : w.pool.connChan.closed with
    | true =>
      simp only [hch, if_true] at h
      injection h with h
      injection h with h1 h2
      subst h1 h2
      exact ⟨rfl, Or.inr ⟨rfl, rfl, rfl, Or.inl ⟨rfl, rfl, rfl⟩⟩⟩
    | false =>
      simp only [hch, Bool.false_eq_true, if_false] at h
      cases hf : w.pool.factory w.made with
      | none =>
        simp only [hf] at h
        injection h with h
        injection h with h1 h2
        subst h1 h2
        exact ⟨rfl, Or.inr ⟨rfl, rfl, rfl, Or.inr ⟨rfl, rfl, rfl⟩⟩⟩
      | some c0 =>
        simp only [hf] at h
        injection h with h
        injection h with h1 h2
        subst h1 h2
        exact ⟨rfl, Or.inr ⟨rfl, rfl, rfl, Or.inr ⟨rfl, rfl, rfl⟩⟩⟩
  | cons e0 post =>
    rw [hdw] at h
    have hno := dropWhile_head_false hdw
    cases hc0 : e0.conn with
    | nil => simp [finish, hc0] at h
    | ref id =>
      simp only [finish, hc0] at h
      injection h with h
      injection h with h1 h2
      subst h1 h2
      have hk : ¬ now - e0.time > w.pool.connTimeOut ∧ ping id = true := by
        simpa [discards, hc0] using hno
      exact ⟨rfl, Or.inl ⟨e0, id, rfl, hc0, rfl, not_lt.mp hk.1, hk.2, rfl, rfl⟩⟩

/-- Fate of a buffered entry that `Get` cannot hand out (it is stale or its resource fails
the ping) when `Get` returns having popped it: the resource has been closed, what is left
in the channel is a tail of what followed the entry, and `Get` went on to a later entry,
to the factory, or found the channel closed. -/
theorem Get_passes_entry (now : Int) (ping : Nat → Bool) (w w1 : World) (c : Conn)
    (pre post : List ConnWithTime) (e : ConnWithTime)
    (hopen : w.pool.closed = false) (hget : Get now ping w = Outcome.ret (w1, c))
    (hbuf : w.buf = pre ++ e :: post)
    (hbad : ∀ id, e.conn = Conn.ref id → now - e.time > w.pool.connTimeOut ∨ ping id = false)
    (hpop : w1.buf.length ≤ post.length) :
    ∃ (id : Nat) (evs : List Event),
      e.conn = Conn.ref id ∧ w1.log = w.log ++ evs ∧ Event.close id ∈ evs ∧
      (∃ k, w1.buf = post.drop k) ∧
      (w1.buf.length < post.length ∨ w1.made = w.made + 1 ∨
        w.pool.connChan.closed = true) := by
  obtain ⟨disc, rest, hsplit, hdisc, -, hcase⟩ := Get_ret_cases now ping w w1 c hopen hget
  rw [hbuf] at hsplit
  rcases hcase with ⟨e0, id0, hrest, hc0, -, hfresh, hp0, -, hlog⟩ | ⟨hrest, hb1, hlog, hend⟩
  · -- an entry was handed out
    rw [hrest] at hsplit
    have hne : e0 ≠ e := by
      intro heq
      subst heq
      rcases hbad id0 hc0 with hs | hp
      · exact absurd hfresh (not_le.mpr hs)
      · simp [hp0] at hp
    rcases List.append_eq_append_iff.1 hsplit with ⟨a, ha1, ha2⟩ | ⟨a, _, ha⟩
    · cases a with
      | nil =>
        simp only [List.nil_append] at ha2
        injection ha2 with h1 _
        exact absurd h1.symm hne
      | cons x a1 =>
        -- `e` lies in the discarded run, before the entry handed out
        simp only [List.cons_append] at ha2
        injection ha2 with h1 h2
        subst h1
        have hmem : e ∈ disc := by rw [ha1]; simp
        obtain ⟨id, hcid, -⟩ := discards_true (hdisc e hmem)
        refine ⟨id, discardEvents now w.pool.connTimeOut disc ++ [Event.ping id0], hcid, ?_,
          ?_, ⟨a1.length + 1, ?_⟩, Or.inl ?_⟩
        · rw [hlog, List.append_assoc]
        · exact List.mem_append_left _ (close_mem_discardEvents _ _ disc e id hmem hcid)
        · rw [h2]
          simp
        · rw [h2]
          simp only [List.length_append, List.length_cons]
          omega
    · cases a with
      | nil =>
        simp only [List.nil_append] at ha
        injection ha with h1 _
        exact absurd h1 hne
      | cons y a1 =>
        -- the entry handed out would lie before `e`, which then was not popped
        simp only [List.cons_append] at ha
        injection ha with _ h2
        have hlen := congrArg List.length h2
        simp only [List.length_cons, List.length_append] at hlen
        omega
  · -- every entry was discarded
    rw [hrest, List.append_nil] at hsplit
    have hmem : e ∈ disc := by rw [← hsplit]; simp
    obtain ⟨id, hcid, -⟩ := discards_true (hdisc e hmem)
    refine ⟨id, discardEvents now w.pool.connTimeOut disc, hcid, hlog,
      close_mem_discardEvents _ _ disc e id hmem hcid, ⟨post.length, ?_⟩, ?_⟩
    · rw [hb1]; simp
    · rcases hend with ⟨hch, -, -⟩ | ⟨-, hm, -⟩
      · exact Or.inr (Or.inr hch)
      · exact Or.inr (Or.inl hm)

/-! ## Get and stale entries -/

/-- C2 (counterexample).  First scenario: the pool built with `WithCap(1)` and
`WithTimeOut(50)` from a factory that hands out one and the same resource buffers it at
time 0; `Get` at time 100 finds the entry stale, closes the resource, calls the factory
and returns that very resource.  Second scenario, with a factory of new resources and
capacity two: both resources are taken out, the first one is put back at time 20 and
again at time 90; `Get` at time 100 finds the entry of time 20 stale, closes the
resource, and returns it from the entry of time 90. -/
theorem Get_returns_conn_of_stale_entry :
    (∃ w w1 : World,
      NewConnPool 4 (fun _ => 0) sharedFactory
        [ConnPoolOption.ofCap (WithCap 4 1), ConnPoolOption.ofTimeOut (WithTimeOut 50)]
        = Outcome.ret w ∧
      w.pool.closed = false ∧ w.pool.connChan.closed = false ∧
      w.buf = [{ conn := Conn.ref 0, time := 0 }] ∧
      (100 : Int) - 0 > w.pool.connTimeOut ∧
      Get 100 (fun _ => true) w = Outcome.ret (w1, Conn.ref 0) ∧
      w1.log = [Event.close 0]) ∧
    (∃ w w1 w2 w3 w4 w5 : World,
      NewConnPool 4 (fun _ => 0) freshFactory
        [ConnPoolOption.ofCap (WithCap 4 2), ConnPoolOption.ofTimeOut (WithTimeOut 50)]
        = Outcome.ret w ∧
      Get 10 (fun _ => true) w = Outcome.ret (w1, Conn.ref 0) ∧
      Get 10 (fun _ => true) w1 = Outcome.ret (w2, Conn.ref 1) ∧
      Put 20 (Conn.ref 0) w2 = Outcome.ret w3 ∧
      Put 90 (Conn.ref 0) w3 = Outcome.ret w4 ∧
      w4.pool.closed = false ∧ w4.pool.connChan.closed = false ∧
      w4.buf = [{ conn := Conn.ref 0, time := 20 }, { conn := Conn.ref 0, time := 90 }] ∧
      (100 : Int) - 20 > w4.pool.connTimeOut ∧
      Get 100 (fun _ => true) w4 = Outcome.ret (w5, Conn.ref 0) ∧
      w5.log = [Event.ping 0, Event.ping 1, Event.close 0, Event.ping 0]) :=
  ⟨⟨_, _, rfl, rfl, rfl, rfl, by decide, rfl, rfl⟩,
   ⟨_, _, _, _, _, _, rfl, rfl, rfl, rfl, rfl, rfl, rfl, rfl, by decide, rfl, rfl⟩⟩

/-- C2 (amended).  Let an open pool hold an entry `e` that is stale at `now`, behind the
entries `pre` and before the entries `post`, and let `Get` called at `now` return `c`.
Then `c` is the resource of `e` only if that resource is also held by a buffered entry
that is not stale, or is the product of the factory call this `Get` made.  And if `Get`
popped `e` (no more than `post` is left), it called `Close` on the resource of `e` and
went on: it popped a later entry or called the factory. -/
theorem Get_stale_entry (now : Int) (ping : Nat → Bool) (w w1 : World) (c : Conn)
    (pre post : List ConnWithTime) (e : ConnWithTime)
    (hopen : w.isOpen) (hbuf : w.buf = pre ++ e :: post)
    (hstale : now - e.time > w.pool.connTimeOut)
    (hget : Get now ping w = Outcome.ret (w1, c)) :
    (c = e.conn →
      (∃ e1 ∈ w.buf, e1.conn = c ∧ now - e1.time ≤ w.pool.connTimeOut ∧ w1.made = w.made) ∨
      (w1.made = w.made + 1 ∧ w.pool.factory w.made = some c)) ∧
    (w1.buf.length ≤ post.length →
      ∃ (id : Nat) (evs : List Event),
        e.conn = Conn.ref id ∧ w1.log = w.log ++ evs ∧ Event.close id ∈ evs ∧
        (w1.buf.length < post.length ∨ w1.made = w.made + 1)) := by
  obtain ⟨hflag, hchan⟩ := hopen
  constructor
  · intro hce
    obtain ⟨disc, rest, hsplit, hdisc, -, hcase⟩ := Get_ret_cases now ping w w1 c hflag hget
    rcases hcase with ⟨e0, id0, hrest, hc0, hc, hfresh, -, hmade, -⟩ | ⟨hrest, -, -, hend⟩
    · refine Or.inl ⟨e0, ?_, ?_, hfresh, hmade⟩
      · rw [hsplit, hrest]; simp
      · rw [hc0, hc]
    · rcases hend with ⟨hch, -, -⟩ | ⟨-, hm, hres⟩
      · rw [hchan] at hch; cases hch
      · refine Or.inr ⟨hm, ?_⟩
        cases hf : w.pool.factory w.made with
        | some c0 => rw [hres, hf]; rfl
        | none =>
          -- the factory failed, so `c` is nil; but all entries were discarded, none is nil
          exfalso
          rw [hf] at hres
          have hmem : e ∈ disc := by
            have : w.buf = disc := by rw [hsplit, hrest, List.append_nil]
            rw [← this, hbuf]; simp
          obtain ⟨id, hcid, -⟩ := discards_true (hdisc e hmem)
          rw [← hce, hres] at hcid
          cases hcid
  · intro hpop
    obtain ⟨id, evs, h1, h2, h3, -, h5⟩ := Get_passes_entry now ping w w1 c pre post e hflag
      hget hbuf (fun _ _ => Or.inl hstale) hpop
    refine ⟨id, evs, h1, h2, h3, ?_⟩
    rcases h5 with h | h | h
    · exact Or.inl h
    · exact Or.inr h
    · rw [hchan] at h; cases h

/-- Witness of C2 (amended): on the sample pool both entries are stale at time 100; `Get`
closes both resources and returns the product of the factory. -/
theorem Get_stale_entry_witness :
    ∃ (w1 : World) (c : Conn),
      Get 100 (fun _ => true) sampleOpen = Outcome.ret (w1, c) ∧
      c = Conn.ref 2 ∧ w1.log = [Event.close 0, Event.close 1] ∧
      (c = Conn.ref 0 →
        (∃ e1 ∈ sampleOpen.buf, e1.conn = c ∧
          100 - e1.time ≤ sampleOpen.pool.connTimeOut ∧ w1.made = sampleOpen.made) ∨
        (w1.made = sampleOpen.made + 1 ∧
          sampleOpen.pool.factory sampleOpen.made = some c)) ∧
      (w1.buf.length ≤ [({ conn := Conn.ref 1, time := 0 } : ConnWithTime)].length →
        ∃ (id : Nat) (evs : List Event),
          Conn.ref 0 = Conn.ref id ∧ w1.log = sampleOpen.log ++ evs ∧ Event.close id ∈ evs ∧
          (w1.buf.length < [({ conn := Conn.ref 1, time := 0 } : ConnWithTime)].length ∨
            w1.made = sampleOpen.made + 1)) :=
  ⟨_, _, rfl, rfl, rfl,
    Get_stale_entry 100 (fun _ => true) sampleOpen _ _ []
      [{ conn := Conn.ref 1, time := 0 }] { conn := Conn.ref 0, time := 0 }
      ⟨rfl, rfl⟩ rfl (by decide) rfl⟩

/-! ## Get and resources that fail the ping -/

/-- C3.  Let a pool whose `closed` flag is clear hold an entry `e` whose resource `id`
answers `Ping` with an error, and let `Get` return `c`.  Then `c` is that resource only
if the factory call of this `Get` produced it: it is never handed out from the holding
area.  And if `Get` popped `e` (no more than `post` is left), it called `Close` on the
resource and the entry is gone: what is left is a tail of `post`. -/
theorem Get_dead_entry (now : Int) (ping : Nat → Bool) (w w1 : World) (c : Conn)
    (pre post : List ConnWithTime) (e : ConnWithTime) (id : Nat)
    (hopen : w.pool.closed = false) (hbuf : w.buf = pre ++ e :: post)
    (hconn : e.conn = Conn.ref id) (hping : ping id = false)
    (hget : Get now ping w = Outcome.ret (w1, c)) :
    (c = Conn.ref id →
      w1.made = w.made + 1 ∧ w.pool.factory w.made = some (Conn.ref id)) ∧
    (w1.buf.length ≤ post.length →
      ∃ evs : List Event, w1.log = w.log ++ evs ∧ Event.close id ∈ evs ∧
        ∃ k, w1.buf = post.drop k) := by
  constructor
  · intro hc
    obtain ⟨disc, rest, -, -, -, hcase⟩ := Get_ret_cases now ping w w1 c hopen hget
    rcases hcase with ⟨e0, id0, -, -, hc0, -, hp0, -, -⟩ | ⟨-, -, -, hend⟩
    · rw [hc] at hc0
      injection hc0 with hid
      rw [← hid, hping] at hp0
      cases hp0
    · rcases hend with ⟨-, hnil, -⟩ | ⟨-, hm, hres⟩
      · rw [hc] at hnil; cases hnil
      · refine ⟨hm, ?_⟩
        cases hf : w.pool.factory w.made with
        | some c0 =>
          rw [hf] at hres
          rw [← hc, hres]
          rfl
        | none =>
          rw [hf, hc] at hres
          cases hres
  · intro hpop
    obtain ⟨id1, evs, h1, h2, h3, h4, -⟩ := Get_passes_entry now ping w w1 c pre post e hopen
      hget hbuf
      (fun j hj => by
        rw [hconn] at hj
        injection hj with hj
        subst hj
        exact Or.inr hping)
      hpop
    rw [hconn] at h1
    injection h1 with h1
    subst h1
    exact ⟨evs, h2, h3, h4⟩

/-- Witness of C3: on the sample pool, with resource 0 failing the ping, `Get` at time 10
pings and closes resource 0 and returns resource 1. -/
theorem Get_dead_entry_witness :
    ∃ (w1 : World) (c : Conn),
      Get 10 (fun id => id != 0) sampleOpen = Outcome.ret (w1, c) ∧
      c = Conn.ref 1 ∧ w1.buf = [] ∧
      (c = Conn.ref 0 →
        w1.made = sampleOpen.made + 1 ∧
          sampleOpen.pool.factory sampleOpen.made = some (Conn.ref 0)) ∧
      (w1.buf.length ≤ [({ conn := Conn.ref 1, time := 0 } : ConnWithTime)].length →
        ∃ evs : List Event, w1.log = sampleOpen.log ++ evs ∧ Event.close 0 ∈ evs ∧
          ∃ k, w1.buf = [({ conn := Conn.ref 1, time := 0 } : ConnWithTime)].drop k) :=
  ⟨_, _, rfl, rfl, rfl,
    Get_dead_entry 10 (fun id => id != 0) sampleOpen _ _ []
      [{ conn := Conn.ref 1, time := 0 }] { conn := Conn.ref 0, time := 0 } 0
      rfl rfl rfl rfl rfl⟩

/-! ## Capacity discipline in sequential runs -/

/-- An option loop that does not panic leaves the pool ready for the warm-up loop. -/
theorem applyOpts_unfilled : ∀ (opts : List ConnPoolOption) (cp cp1 : ConnPool),
    cp.Unfilled → applyOpts opts cp = some cp1 → cp1.Unfilled := by
  intro opts
  induction opts with
  | nil =>
    intro cp cp1 hcp h
    simp only [applyOpts] at h
    injection h with h
    rw [← h]
    exact hcp
  | cons o rest ih =>
    intro cp cp1 hcp h
    cases o with
    | ofCap c =>
      simp only [applyOpts, ConnPoolOption.Apply, connPoolWithCap.Apply] at h
      cases hm : makeChan c.cap with
      | none => simp [hm] at h
      | some ch =>
        obtain ⟨h0, -, hch⟩ := makeChan_some hm
        subst hch
        simp only [hm] at h
        refine ih _ cp1 ?_ h
        exact ⟨h0, hcp.2.1, rfl⟩
    | ofTimeOut c =>
      simp only [applyOpts, ConnPoolOption.Apply, connPoolWithTimeOut.Apply] at h
      refine ih _ cp1 ?_ h
      exact ⟨hcp.1, hcp.2.1, hcp.2.2⟩

/-- The pool `NewConnPool` returns has the shape `World.Inv`, whatever the options are. -/
theorem NewConnPool_inv (numCPU : Int) (clock : Nat → Int) (factory : Factory)
    (opts : List ConnPoolOption) (w : World)
    (h : NewConnPool numCPU clock factory opts = Outcome.ret w) : w.Inv := by
  unfold NewConnPool at h
  cases hmk : makeChan numCPU with
  | none => simp [hmk] at h
  | some ch0 =>
    obtain ⟨hnn0, -, hch0⟩ := makeChan_some hmk
    subst hch0
    simp only [hmk] at h
    have hneg : ¬ numCPU < 0 := not_lt.mpr hnn0
    cases hopts : applyOpts opts
        { connChan := { buf := [], capacity := numCPU.toNat, closed := false },
          factory := factory, closed := false, connTimeOut := 5 * Second, cap := numCPU } with
    | none => simp [hopts] at h
    | some cp =>
      simp only [hopts] at h
      have hcp : cp.Unfilled := applyOpts_unfilled opts _ cp ⟨not_lt.mp hneg, rfl, rfl⟩ hopts
      have hchan := hcp.2.2
      rw [warm_ret clock cp.cap.toNat 0 { pool := cp, made := 0, log := [] }
        (by show cp.connChan.closed = false; rw [hchan])
        (by show cp.connChan.buf.length + cp.cap.toNat ≤ cp.connChan.capacity
            rw [hchan]; simp)] at h
      injection h with h
      subst h
      refine ⟨hcp.1, ?_, ?_, ?_⟩
      · show cp.connChan.capacity = cp.cap.toNat
        rw [hchan]
      · show (cp.connChan.buf ++ created clock cp.factory 0 0 cp.cap.toNat).length
          ≤ cp.connChan.capacity
        rw [hchan]
        simpa using created_length_le clock cp.factory 0 0 cp.cap.toNat
      · show cp.connChan.closed = cp.closed
        rw [hchan, hcp.2.1]

/-- A send that returns has appended its entry to a channel that had room. -/
theorem sendTo_ret (w w1 : World) (e : ConnWithTime) (h : sendTo w e = Outcome.ret w1) :
    w.pool.connChan.closed = false ∧ w.buf.length < w.pool.connChan.capacity ∧
    w1 = w.setBuf (w.buf ++ [e]) := by
  unfold sendTo at h
  cases hch : w.pool.connChan.closed with
  | true => simp [hch] at h
  | false =>
    by_cases hroom : w.pool.connChan.buf.length < w.pool.connChan.capacity
    · simp only [hch, Bool.false_eq_true, if_false, hroom, if_true] at h
      injection h with h
      exact ⟨rfl, hroom, h.symm⟩
    · simp [hch, hroom] at h

/-- A send that waits leaves the world as it is. -/
theorem sendTo_block (w wb : World) (e : ConnWithTime) (h : sendTo w e = Outcome.block wb) :
    wb = w := by
  unfold sendTo at h
  cases hch : w.pool.connChan.closed with
  | true => simp [hch] at h
  | false =>
    by_cases hroom : w.pool.connChan.buf.length < w.pool.connChan.capacity
    · simp [hch, hroom] at h
    · simp only [hch, Bool.false_eq_true, if_false, hroom] at h
      injection h with h
      exact h.symm

/-- Every call that returns keeps the shape `World.Inv`. -/
theorem step_inv (op : Op) (w w1 : World) (hinv : w.Inv) (h : step op w = Outcome.ret w1) :
    w1.Inv := by
  obtain ⟨h0, hcapacity, hlen, hflags⟩ := hinv
  cases op with
  | get now ping =>
    simp only [step] at h
    cases hg : Get now ping w with
    | block wb => simp [hg] at h
    | panicked => simp [hg] at h
    | ret r =>
      obtain ⟨w2, c⟩ := r
      simp only [hg] at h
      injection h with h
      subst h
      cases hcl : w.pool.closed with
      | true =>
        rw [Get_of_closed now ping w hcl] at hg
        injection hg with hg
        injection hg with hg _
        subst hg
        exact ⟨h0, hcapacity, hlen, hflags⟩
      | false =>
        obtain ⟨disc, rest, hsplit, -, hpool, hcase⟩ := Get_ret_cases now ping w w2 c hcl hg
        have hshort : w2.buf.length ≤ w.buf.length := by
          rcases hcase with ⟨e0, id0, hrest, -⟩ | ⟨-, hb, -⟩
          · rw [hsplit, hrest]
            simp only [List.length_append, List.length_cons]
            omega
          · rw [hb]; simp
        refine ⟨?_, ?_, ?_, ?_⟩
        · rw [hpool]; exact h0
        · rw [hpool]; exact hcapacity
        · have : w2.pool.connChan.capacity = w.pool.connChan.capacity := by rw [hpool]; rfl
          omega
        · rw [hpool]; exact hflags
  | put now conn =>
    simp only [step] at h
    cases hcl : w.pool.closed with
    | true =>
      rw [Put_of_closed now conn w hcl] at h
      injection h with h
      subst h
      exact ⟨h0, hcapacity, hlen, hflags⟩
    | false =>
      have hsend : ∃ w0 : World, w0.pool = w.pool ∧
          sendTo w0 { conn := conn, time := now } = Outcome.ret w1 := by
        unfold Put at h
        simp only [hcl, Bool.false_eq_true, if_false] at h
        split_ifs at h
        · cases conn with
          | nil => simp at h
          | ref id => exact ⟨w.logEvent (Event.close id), rfl, h⟩
        · exact ⟨w, rfl, h⟩
      obtain ⟨w0, hp, hs⟩ := hsend
      obtain ⟨-, hroom, hw1⟩ := sendTo_ret w0 w1 _ hs
      subst hw1
      have hb : w0.buf = w.buf := by simp only [World.buf, hp]
      refine ⟨?_, ?_, ?_, ?_⟩
      · show w0.pool.cap ≥ 0; rw [hp]; exact h0
      · show w0.pool.connChan.capacity = w0.pool.cap.toNat; rw [hp]; exact hcapacity
      · show (w0.buf ++ [_]).length ≤ w0.pool.connChan.capacity
        simp only [List.length_append, List.length_singleton]
        omega
      · show w0.pool.connChan.closed = w0.pool.closed; rw [hp]; exact hflags
  | close =>
    simp only [step] at h
    cases hcl : w.pool.closed with
    | true =>
      have : Close w = Outcome.ret w := by simp [Close, hcl]
      rw [this] at h
      injection h with h
      subst h
      exact ⟨h0, hcapacity, hlen, hflags⟩
    | false =>
      obtain ⟨-, hrest⟩ := Close_ret_inv w w1 h
      obtain ⟨-, hnn, hopen⟩ := hrest hcl
      rw [Close_of_open w hopen hnn] at h
      injection h with h
      subst h
      exact ⟨h0, hcapacity, Nat.zero_le _, rfl⟩

/-- Every world of a sequential run has the shape `World.Inv`. -/
theorem Reachable.inv {numCPU : Int} {clock : Nat → Int} {factory : Factory}
    {opts : List ConnPoolOption} {w : World} (h : Reachable numCPU clock factory opts w) :
    w.Inv := by
  induction h with
  | init w hinit => exact NewConnPool_inv numCPU clock factory opts w hinit
  | next w w1 op _ hstep ih => exact step_inv op w w1 ih hstep

/-- In a sequential run, every `Put` of a resource on an open pool whose holding area has
reached `cap` closes the resource and then waits forever on the full channel. -/
theorem Put_blocks_of_reachable {numCPU : Int} {clock : Nat → Int} {factory : Factory}
    {opts : List ConnPoolOption} {w : World} (h : Reachable numCPU clock factory opts w)
    (hopen : w.pool.closed = false) (hcap : (w.buf.length : Int) ≥ w.pool.cap)
    (now : Int) (id : Nat) :
    Put now (Conn.ref id) w = Outcome.block (w.logEvent (Event.close id)) := by
  obtain ⟨h0, hcapacity, -, hflags⟩ := Reachable.inv h
  refine Put_full_channel now id w ⟨hopen, by rw [hflags, hopen]⟩ ?_ hcap
  have h1 : (w.pool.cap.toNat : Int) = w.pool.cap := Int.toNat_of_nonneg h0
  omega

/-- A call that waits forever does so with the buffer it found. -/
theorem step_block_buf (op : Op) (w wb : World) (h : step op w = Outcome.block wb) :
    wb.pool = w.pool := by
  cases op with
  | get now ping =>
    simp only [step] at h
    cases hcl : w.pool.closed with
    | true => rw [Get_of_closed now ping w hcl] at h; simp at h
    | false =>
      rw [Get_scan now ping w hcl] at h
      exfalso
      cases hdw : w.buf.dropWhile (discards now w.pool.connTimeOut ping) with
      | nil =>
        rw [hdw] at h
        simp only [finish] at h
        cases hch : w.pool.connChan.closed <;> cases hf : w.pool.factory w.made <;>
          simp [hch, hf] at h
      | cons e0 post =>
        rw [hdw] at h
        cases hc0 : e0.conn <;> simp [finish, hc0] at h
  | put now conn =>
    simp only [step] at h
    unfold Put at h
    cases hcl : w.pool.closed with
    | true => simp [hcl] at h
    | false =>
      simp only [hcl, Bool.false_eq_true, if_false] at h
      split_ifs at h
      · cases conn with
        | nil => simp at h
        | ref id => rw [sendTo_block _ wb _ h]; rfl
      · rw [sendTo_block _ wb _ h]
  | close =>
    simp only [step] at h
    exfalso
    cases hcl : w.pool.closed with
    | true => simp [Close, hcl] at h
    | false =>
      cases hch : w.pool.connChan.closed with
      | true => simp [Close, hcl, hch] at h
      | false =>
        simp only [Close, hcl, hch, Bool.false_eq_true, if_false] at h
        have hnb : ∀ (q : List ConnWithTime) (w0 : World), drain q w0 ≠ Outcome.block wb := by
          intro q
          induction q with
          | nil => intro w0 h0; simp [drain] at h0
          | cons e rest ih =>
            intro w0 h0
            cases hc : e.conn with
            | nil => simp [drain, hc] at h0
            | ref id =>
              simp only [drain, hc] at h0
              exact ih _ h0
        exact hnb _ _ h

/-- C9.  In every world a sequential client can reach from `NewConnPool` (any factory,
any options) by `Get`, `Put` and `Close` calls, the holding area holds at most `cap`
entries; this is also so in the world in which a call that never returns is waiting. -/
theorem holding_area_within_cap (numCPU : Int) (clock : Nat → Int) (factory : Factory)
    (opts : List ConnPoolOption) (w : World)
    (h : Reachable numCPU clock factory opts w) :
    (w.buf.length : Int) ≤ w.pool.cap ∧
    ∀ (op : Op) (wb : World), step op w = Outcome.block wb →
      (wb.buf.length : Int) ≤ wb.pool.cap := by
  obtain ⟨h0, hcapacity, hlen, -⟩ := Reachable.inv h
  have hmain : (w.buf.length : Int) ≤ w.pool.cap := by
    have h1 : (w.pool.cap.toNat : Int) = w.pool.cap := Int.toNat_of_nonneg h0
    omega
  refine ⟨hmain, fun op wb hb => ?_⟩
  have hp := step_block_buf op w wb hb
  simp only [World.buf, hp]
  exact hmain

/-- Witness of C9: the pool built with `WithCap(2)`, after a `Get` and two `Put`s, holds
two entries; a third `Put` waits with the holding area still at two. -/
theorem holding_area_within_cap_witness :
    ∃ w : World,
      Reachable 4 (fun _ => 0) freshFactory [ConnPoolOption.ofCap (WithCap 4 2)] w ∧
      w.buf.length = 2 ∧ w.pool.cap = 2 ∧
      ((w.buf.length : Int) ≤ w.pool.cap ∧
        ∀ (op : Op) (wb : World), step op w = Outcome.block wb →
          (wb.buf.length : Int) ≤ wb.pool.cap) :=
  have hreach := Reachable.next _ _ (Op.put 7 (Conn.ref 0))
    (Reachable.next _ _ (Op.get 5 (fun _ => true))
      (@Reachable.init 4 (fun _ => 0) freshFactory
        [ConnPoolOption.ofCap (WithCap 4 2)] _ rfl) rfl) rfl
  ⟨_, hreach, rfl, rfl, holding_area_within_cap _ _ _ _ _ hreach⟩

/-! ## What the calls leave untouched -/

/-- A `Get` that returns has changed nothing of the pool but the content of the channel. -/
theorem Get_frame (now : Int) (ping : Nat → Bool) (w w1 : World) (c : Conn)
    (h : Get now ping w = Outcome.ret (w1, c)) :
    w1.pool = (w.setBuf w1.buf).pool := by
  cases hcl : w.pool.closed with
  | true =>
    rw [Get_of_closed now ping w hcl] at h
    injection h with h
    injection h with h1 _
    subst h1
    rfl
  | false =>
    obtain ⟨_, _, _, _, hpool, _⟩ := Get_ret_cases now ping w w1 c hcl h
    exact hpool

/-- A `Put` that returns either found the flag set and did nothing, or appended its entry
to a channel that had room. -/
theorem Put_ret_cases (now : Int) (conn : Conn) (w w1 : World)
    (h : Put now conn w = Outcome.ret w1) :
    (w.pool.closed = true ∧ w1 = w) ∨
    (w.pool.closed = false ∧ w.pool.connChan.closed = false ∧
      w.buf.length < w.pool.connChan.capacity ∧
      ∃ w0 : World, w0.pool = w.pool ∧ w0.made = w.made ∧
        (w0.log = w.log ∨ ∃ id, conn = Conn.ref id ∧ w0.log = w.log ++ [Event.close id]) ∧
        w1 = w0.setBuf (w.buf ++ [{ conn := conn, time := now }])) := by
  cases hcl : w.pool.closed with
  | true =>
    rw [Put_of_closed now conn w hcl] at h
    injection h with h
    exact Or.inl ⟨rfl, h.symm⟩
  | false =>
    refine Or.inr ⟨rfl, ?_⟩
    unfold Put at h
    simp only [hcl, Bool.false_eq_true, if_false] at h
    split_ifs at h
    · cases conn with
      | nil => simp at h
      | ref id =>
        obtain ⟨h1, h2, h3⟩ := sendTo_ret _ w1 _ h
        exact ⟨h1, h2, w.logEvent (Event.close id), rfl, rfl, Or.inr ⟨id, rfl, rfl⟩, h3⟩
    · obtain ⟨h1, h2, h3⟩ := sendTo_ret _ w1 _ h
      exact ⟨h1, h2, w, rfl, rfl, Or.inl rfl, h3⟩

/-- A `Close` that returns either found the flag set and did nothing, or drained an open
pool that held no nil value. -/
theorem Close_ret_cases (w w1 : World) (h : Close w = Outcome.ret w1) :
    (w.pool.closed = true ∧ w1 = w) ∨
    (w.isOpen ∧ NoNil w.buf ∧
      w1 = { pool := { w.pool with closed := true,
                                   connChan := { w.pool.connChan with buf := [], closed := true } },
             made := w.made, log := w.log ++ closeEvents w.buf }) := by
  cases hcl : w.pool.closed with
  | true =>
    have h0 : Close w = Outcome.ret w := by simp [Close, hcl]
    rw [h0] at h
    injection h with h
    exact Or.inl ⟨rfl, h.symm⟩
  | false =>
    obtain ⟨-, hrest⟩ := Close_ret_inv w w1 h
    obtain ⟨-, hnn, hopen⟩ := hrest hcl
    rw [Close_of_open w hopen hnn] at h
    injection h with h
    exact Or.inr ⟨hopen, hnn, h.symm⟩

/-- No call that returns changes `cap`, `connTimeOut`, the factory or the size of the
channel. -/
theorem step_frame (op : Op) (w w1 : World) (h : step op w = Outcome.ret w1) :
    w1.pool.cap = w.pool.cap ∧ w1.pool.connTimeOut = w.pool.connTimeOut ∧
    w1.pool.factory = w.pool.factory ∧
    w1.pool.connChan.capacity = w.pool.connChan.capacity := by
  cases op with
  | get now ping =>
    simp only [step] at h
    cases hg : Get now ping w with
    | block wb => simp [hg] at h
    | panicked => simp [hg] at h
    | ret r =>
      obtain ⟨w2, c⟩ := r
      simp only [hg] at h
      injection h with h
      subst h
      have hp := Get_frame now ping w w2 c hg
      refine ⟨?_, ?_, ?_, ?_⟩ <;> rw [hp] <;> rfl
  | put now conn =>
    simp only [step] at h
    rcases Put_ret_cases now conn w w1 h with ⟨-, rfl⟩ | ⟨-, -, -, w0, hp, -, -, rfl⟩
    · exact ⟨rfl, rfl, rfl, rfl⟩
    · refine ⟨?_, ?_, ?_, ?_⟩
      · show w0.pool.cap = w.pool.cap; rw [hp]
      · show w0.pool.connTimeOut = w.pool.connTimeOut; rw [hp]
      · show w0.pool.factory = w.pool.factory; rw [hp]
      · show w0.pool.connChan.capacity = w.pool.connChan.capacity; rw [hp]
  | close =>
    simp only [step] at h
    rcases Close_ret_cases w w1 h with ⟨-, rfl⟩ | ⟨-, -, rfl⟩
    · exact ⟨rfl, rfl, rfl, rfl⟩
    · exact ⟨rfl, rfl, rfl, rfl⟩

/-! ## Options -/

/-- The option loop never touches the factory. -/
theorem applyOpts_factory : ∀ (opts : List ConnPoolOption) (cp cp1 : ConnPool),
    applyOpts opts cp = some cp1 → cp1.factory = cp.factory := by
  intro opts
  induction opts with
  | nil =>
    intro cp cp1 h
    simp only [applyOpts] at h
    injection h with h
    rw [← h]
  | cons o rest ih =>
    intro cp cp1 h
    cases o with
    | ofCap c =>
      simp only [applyOpts, ConnPoolOption.Apply, connPoolWithCap.Apply] at h
      cases hm : makeChan c.cap with
      | none => simp [hm] at h
      | some ch =>
        simp only [hm] at h
        have h1 := ih _ cp1 h
        exact h1
    | ofTimeOut c =>
      simp only [applyOpts, ConnPoolOption.Apply, connPoolWithTimeOut.Apply] at h
      have h1 := ih _ cp1 h
      exact h1

/-- What a returning `NewConnPool` has built, whatever the options are. -/
theorem NewConnPool_ret_shape (numCPU : Int) (clock : Nat → Int) (factory : Factory)
    (opts : List ConnPoolOption) (w : World)
    (h : NewConnPool numCPU clock factory opts = Outcome.ret w) :
    ∃ cp : ConnPool,
      applyOpts opts
        { connChan := { buf := [], capacity := numCPU.toNat, closed := false },
          factory := factory, closed := false, connTimeOut := 5 * Second, cap := numCPU }
        = some cp ∧
      cp.Unfilled ∧ cp.factory = factory ∧
      w = { pool := { cp with connChan :=
                        { cp.connChan with buf := created clock factory 0 0 cp.cap.toNat } },
            made := cp.cap.toNat, log := [] } := by
  unfold NewConnPool at h
  cases hmk : makeChan numCPU with
  | none => simp [hmk] at h
  | some ch0 =>
    obtain ⟨hnn0, -, hch0⟩ := makeChan_some hmk
    subst hch0
    simp only [hmk] at h
    have hneg : ¬ numCPU < 0 := not_lt.mpr hnn0
    cases hopts : applyOpts opts
        { connChan := { buf := [], capacity := numCPU.toNat, closed := false },
          factory := factory, closed := false, connTimeOut := 5 * Second, cap := numCPU } with
    | none => simp [hopts] at h
    | some cp =>
      simp only [hopts] at h
      have hcp : cp.Unfilled := applyOpts_unfilled opts _ cp ⟨not_lt.mp hneg, rfl, rfl⟩ hopts
      have hfac : cp.factory = factory := applyOpts_factory opts _ cp hopts
      have hchan := hcp.2.2
      rw [warm_ret clock cp.cap.toNat 0 { pool := cp, made := 0, log := [] }
        (by show cp.connChan.closed = false; rw [hchan])
        (by show cp.connChan.buf.length + cp.cap.toNat ≤ cp.connChan.capacity
            rw [hchan]; simp)] at h
      injection h with h
      refine ⟨cp, rfl, hcp, hfac, ?_⟩
      rw [← h]
      simp only [World.setBuf, World.buf, hchan, List.nil_append, hfac, Nat.zero_add]

/-- The option loop sets `cap` and `connTimeOut` from the last call of each kind. -/
theorem applyOpts_spec (numCPU : Int) : ∀ (calls : List OptCall) (cp cp1 : ConnPool),
    applyOpts (calls.map (OptCall.build numCPU)) cp = some cp1 →
    cp1.cap = (match (capArgs calls).getLast? with
      | none => cp.cap
      | some n => if n < 0 then numCPU else n) ∧
    cp1.connTimeOut = (match (timeOutArgs calls).getLast? with
      | none => cp.connTimeOut
      | some d => if d < 0 then 5 * Second else d) := by
  intro calls
  induction calls with
  | nil =>
    intro cp cp1 h
    simp only [List.map_nil, applyOpts] at h
    injection h with h
    subst h
    exact ⟨rfl, rfl⟩
  | cons c rest ih =>
    intro cp cp1 h
    cases c with
    | withCap n =>
      simp only [List.map_cons, OptCall.build, applyOpts, ConnPoolOption.Apply,
        connPoolWithCap.Apply] at h
      cases hm : makeChan (WithCap numCPU n).cap with
      | none => simp [hm] at h
      | some ch =>
        simp only [hm] at h
        obtain ⟨h1, h2⟩ := ih _ cp1 h
        simp only [capArgs, timeOutArgs, List.getLast?_cons]
        refine ⟨?_, h2⟩
        rw [h1]
        cases (capArgs rest).getLast? <;> rfl
    | withTimeOut t =>
      simp only [List.map_cons, OptCall.build, applyOpts, ConnPoolOption.Apply,
        connPoolWithTimeOut.Apply] at h
      obtain ⟨h1, h2⟩ := ih _ cp1 h
      simp only [capArgs, timeOutArgs, List.getLast?_cons]
      refine ⟨h1, ?_⟩
      rw [h2]
      cases (timeOutArgs rest).getLast? <;> rfl

/-- Every option value built from a constructor call comes from the public constructors. -/
theorem build_fromAPI (numCPU : Int) (calls : List OptCall) :
    ∀ o ∈ calls.map (OptCall.build numCPU), o.FromAPI numCPU := by
  intro o ho
  obtain ⟨c, -, rfl⟩ := List.mem_map.1 ho
  cases c with
  | withCap n => exact Or.inl ⟨n, rfl⟩
  | withTimeOut t => exact Or.inr ⟨t, rfl⟩

/-- Capacity and timeout of the pool `NewConnPool` returns. -/
theorem NewConnPool_config (numCPU : Int) (clock : Nat → Int) (factory : Factory)
    (calls : List OptCall) (w : World)
    (h : NewConnPool numCPU clock factory (calls.map (OptCall.build numCPU)) = Outcome.ret w) :
    w.pool.cap = specCap numCPU calls ∧ w.pool.connTimeOut = specTimeOut calls := by
  obtain ⟨cp, happly, -, -, rfl⟩ := NewConnPool_ret_shape numCPU clock factory _ w h
  obtain ⟨h1, h2⟩ := applyOpts_spec numCPU calls _ cp happly
  exact ⟨h1, h2⟩

/-- In a sequential run `cap`, `connTimeOut` and the factory stay what `NewConnPool` made
them. -/
theorem Reachable.config {numCPU : Int} {clock : Nat → Int} {factory : Factory}
    {opts : List ConnPoolOption} {w : World} (h : Reachable numCPU clock factory opts w) :
    ∃ w0 : World, NewConnPool numCPU clock factory opts = Outcome.ret w0 ∧
      w.pool.cap = w0.pool.cap ∧ w.pool.connTimeOut = w0.pool.connTimeOut ∧
      w.pool.factory = w0.pool.factory := by
  induction h with
  | init w hinit => exact ⟨w, hinit, rfl, rfl, rfl⟩
  | next w w1 op _ hstep ih =>
    obtain ⟨w0, h0, h1, h2, h3⟩ := ih
    obtain ⟨f1, f2, f3, -⟩ := step_frame op w w1 hstep
    exact ⟨w0, h0, f1.trans h1, f2.trans h2, f3.trans h3⟩

/-- C12 (counterexample).  With four CPUs, `NewConnPool(factory, WithCap(0))` returns a
pool whose `cap` is 0, which is not a positive integer. -/
theorem NewConnPool_cap_zero :
    ∃ w : World,
      NewConnPool 4 (fun _ => 0) freshFactory [OptCall.build 4 (OptCall.withCap 0)]
        = Outcome.ret w ∧
      w.pool.cap = 0 ∧ ¬ (1 ≤ w.pool.cap) :=
  ⟨_, rfl, rfl, by decide⟩

/-- C12 (amended).  For every list of `WithCap` and `WithTimeOut` calls, with
`runtime.NumCPU() >= 1`, in the pool `NewConnPool` returns and in every world reached from
it by `Get`, `Put` and `Close` calls, `cap` is not negative, it is at least 1 unless the
last `WithCap` call is `WithCap(0)`, `connTimeOut` is not negative, and both have the
values the options gave them: no call changes either. -/
theorem config_fixed (numCPU : Int) (clock : Nat → Int) (factory : Factory)
    (calls : List OptCall) (w : World) (hcpu : 1 ≤ numCPU)
    (h : Reachable numCPU clock factory (calls.map (OptCall.build numCPU)) w) :
    0 ≤ w.pool.cap ∧ ((capArgs calls).getLast? ≠ some 0 → 1 ≤ w.pool.cap) ∧
    0 ≤ w.pool.connTimeOut ∧
    w.pool.cap = specCap numCPU calls ∧ w.pool.connTimeOut = specTimeOut calls := by
  obtain ⟨w0, h0, h1, h2, -⟩ := Reachable.config h
  obtain ⟨h3, h4⟩ := NewConnPool_config numCPU clock factory calls w0 h0
  rw [h3] at h1
  rw [h4] at h2
  have hs : (0 : Int) ≤ 5 * Second := by decide
  refine ⟨?_, ?_, ?_, h1, h2⟩
  · rw [h1]
    unfold specCap
    cases (capArgs calls).getLast? with
    | none => simp only; omega
    | some n => simp only; split_ifs <;> omega
  · intro hne
    rw [h1]
    unfold specCap
    cases hl : (capArgs calls).getLast? with
    | none => simp only; omega
    | some n =>
      simp only
      have hn0 : n ≠ 0 := fun h0 => hne (by rw [hl, h0])
      split_ifs <;> omega
  · rw [h2]
    unfold specTimeOut
    cases (timeOutArgs calls).getLast? with
    | none => simpa using hs
    | some d => simp only; split_ifs <;> omega

/-- Witness of C12 (amended): the pool built with `WithCap(0)` and `WithTimeOut(-3)` on
four CPUs, after a `Get`. -/
theorem config_fixed_witness :
    ∃ w : World,
      Reachable 4 (fun _ => 0) freshFactory
        ([OptCall.withCap 0, OptCall.withTimeOut (-3)].map (OptCall.build 4)) w ∧
      w.made = 1 ∧
      (0 ≤ w.pool.cap ∧
        ((capArgs [OptCall.withCap 0, OptCall.withTimeOut (-3)]).getLast? ≠ some 0 →
          1 ≤ w.pool.cap) ∧
        0 ≤ w.pool.connTimeOut ∧
        w.pool.cap = specCap 4 [OptCall.withCap 0, OptCall.withTimeOut (-3)] ∧
        w.pool.connTimeOut = specTimeOut [OptCall.withCap 0, OptCall.withTimeOut (-3)]) :=
  have hreach := Reachable.next _ _ (Op.get 5 (fun _ => true))
    (@Reachable.init 4 (fun _ => 0) freshFactory
      ([OptCall.withCap 0, OptCall.withTimeOut (-3)].map (OptCall.build 4)) _ rfl) rfl
  ⟨_, hreach, rfl, config_fixed 4 (fun _ => 0) freshFactory
    [OptCall.withCap 0, OptCall.withTimeOut (-3)] _ (by decide) hreach⟩

/-! ## Put on a pool with room -/

/-- C13.  On an open pool of a sequential run (its channel has the size `cap`) whose
holding area holds fewer than `cap` entries, `Put(conn)` at clock value `now` returns, and
the world it leaves differs from the one it found only by the entry `(conn, now)`
appended at the tail of the holding area: the timestamp is the time of the `Put`, whatever
entry the resource came from, `conn.Close()` is not called, and every other entry and
field is unchanged. -/
theorem Put_with_room (now : Int) (conn : Conn) (w : World) (hinv : w.Inv)
    (hopen : w.pool.closed = false) (hroom : (w.buf.length : Int) < w.pool.cap) :
    Put now conn w = Outcome.ret (w.setBuf (w.buf ++ [{ conn := conn, time := now }])) := by
  obtain ⟨h0, hcapacity, -, hflags⟩ := hinv
  have hch : w.pool.connChan.closed = false := by rw [hflags, hopen]
  have hlt : w.pool.connChan.buf.length < w.pool.connChan.capacity := by
    have h1 : (w.pool.cap.toNat : Int) = w.pool.cap := Int.toNat_of_nonneg h0
    have h2 : w.pool.connChan.buf.length = w.buf.length := rfl
    omega
  have hnot : ¬ (w.pool.cap ≤ (w.pool.connChan.buf.length : Int)) := by
    have h2 : w.pool.connChan.buf.length = w.buf.length := rfl
    omega
  simp only [Put, hopen, Bool.false_eq_true, if_false, ge_iff_le, hnot, sendTo, hch, hlt,
    if_true]
  rfl

/-- Witness of C13: resource 0, taken from the entry of time 0 of the sample pool by a
`Get` at time 10, is put back at time 40 into the pool that `Get` left. -/
theorem Put_with_room_witness :
    ∃ w1 : World,
      Get 10 (fun _ => true) sampleOpen = Outcome.ret (w1, Conn.ref 0) ∧
      w1.buf = [{ conn := Conn.ref 1, time := 0 }] ∧
      Put 40 (Conn.ref 0) w1 = Outcome.ret
        (w1.setBuf (w1.buf ++ [{ conn := Conn.ref 0, time := 40 }])) :=
  ⟨_, rfl, rfl,
    Put_with_room 40 (Conn.ref 0) _
      ⟨by decide, rfl, by decide, rfl⟩ rfl (by decide)⟩

/-! ## The scenario with capacity two -/

/-- C14.  The pool is built with `WithCap(2)`, `WithTimeOut(50ms)` and a factory that
always succeeds, each time with another resource, all of which answer the ping
(`runtime.NumCPU()` being a size `make` accepts for the first channel).  Two
`Get`s made within the timeout of the warm-up entries return the two warm-up resources,
which are distinct, and leave the holding area empty.  Putting both back at time `T`
leaves both buffered with timestamp `T`.  A `Get` at `T + 60ms` closes both as stale,
calls the factory once and returns its new product, which is neither of them. -/
theorem scenario_cap_two (numCPU : Int) (clock : Nat → Int) (ids : Nat → Nat)
    (t1 t2 T : Int) (hcpu : 0 ≤ numCPU) (hmax : numCPU ≤ maxChanSize)
    (hinj : Function.Injective ids)
    (h1 : t1 - clock 0 ≤ 50 * Millisecond) (h2 : t2 - clock 1 ≤ 50 * Millisecond) :
    ∃ w0 w1 w2 w3 w4 w5 : World,
      NewConnPool numCPU clock (factoryOf ids)
        [ConnPoolOption.ofCap (WithCap numCPU 2),
         ConnPoolOption.ofTimeOut (WithTimeOut (50 * Millisecond))] = Outcome.ret w0 ∧
      Get t1 (fun _ => true) w0 = Outcome.ret (w1, Conn.ref (ids 0)) ∧
      Get t2 (fun _ => true) w1 = Outcome.ret (w2, Conn.ref (ids 1)) ∧
      ids 0 ≠ ids 1 ∧ w2.buf = [] ∧
      Put T (Conn.ref (ids 0)) w2 = Outcome.ret w3 ∧
      Put T (Conn.ref (ids 1)) w3 = Outcome.ret w4 ∧
      w4.buf = [{ conn := Conn.ref (ids 0), time := T },
                { conn := Conn.ref (ids 1), time := T }] ∧
      Get (T + 60 * Millisecond) (fun _ => true) w4 = Outcome.ret (w5, Conn.ref (ids 2)) ∧
      ids 2 ≠ ids 0 ∧ ids 2 ≠ ids 1 ∧
      w5.made = w4.made + 1 ∧
      w5.log = w4.log ++ [Event.close (ids 0), Event.close (ids 1)] ∧
      w5.buf = [] := by
  have hcpu1 : ¬ numCPU < 0 := not_lt.mpr hcpu
  have hcpu2 : ¬ maxChanSize < numCPU := not_lt.mpr hmax
  have htwo : ¬ maxChanSize < 2 := by decide
  have hf1 : ¬ t1 - clock 0 > 50 * Millisecond := not_lt.mpr h1
  have hf2 : ¬ t2 - clock 1 > 50 * Millisecond := not_lt.mpr h2
  have hst : T + 60 * Millisecond - T > 50 * Millisecond := by
    unfold Millisecond
    omega
  have hms : ¬ (50 * Millisecond < 0) := by decide
  have hst1 : 50 * Millisecond < 60 * Millisecond := by decide
  refine ⟨scenarioWorld ids [{ conn := Conn.ref (ids 0), time := clock 0 },
        { conn := Conn.ref (ids 1), time := clock 1 }] 2 [],
    scenarioWorld ids [{ conn := Conn.ref (ids 1), time := clock 1 }] 2 [Event.ping (ids 0)],
    scenarioWorld ids [] 2 [Event.ping (ids 0), Event.ping (ids 1)],
    scenarioWorld ids [{ conn := Conn.ref (ids 0), time := T }] 2
      [Event.ping (ids 0), Event.ping (ids 1)],
    scenarioWorld ids [{ conn := Conn.ref (ids 0), time := T },
        { conn := Conn.ref (ids 1), time := T }] 2 [Event.ping (ids 0), Event.ping (ids 1)],
    scenarioWorld ids [] 3 [Event.ping (ids 0), Event.ping (ids 1), Event.close (ids 0),
        Event.close (ids 1)],
    ?_, ?_, ?_, ?_, rfl, ?_, ?_, rfl, ?_, ?_, ?_, rfl, rfl, rfl⟩
  · simp [NewConnPool, makeChan, hcpu1, hcpu2, htwo, applyOpts, ConnPoolOption.Apply,
      connPoolWithCap.Apply, connPoolWithTimeOut.Apply, WithCap, WithTimeOut, hms, warm,
      sendTo, World.countCall, World.setBuf, scenarioWorld, factoryOf]
  · simp [Get, getLoop, scenarioWorld, World.setBuf, World.logEvent, hf1]
  · simp [Get, getLoop, scenarioWorld, World.setBuf, World.logEvent, hf2]
  · exact fun h => absurd (hinj h) (by decide)
  · simp [Put, sendTo, scenarioWorld, World.setBuf]
  · simp [Put, sendTo, scenarioWorld, World.setBuf]
  · simp [Get, getLoop, scenarioWorld, World.setBuf, World.logEvent, World.countCall,
      hst, hst1, factoryOf]
  · exact fun h => absurd (hinj h) (by decide)
  · exact fun h => absurd (hinj h) (by decide)

/-- Witness of C14: four CPUs, warm-up at times 0 and 10, the two `Get`s at times 20 and
30 (in milliseconds), the `Put`s at time 100 ms. -/
theorem scenario_cap_two_witness :
    ∃ w0 w1 w2 w3 w4 w5 : World,
      NewConnPool 4 (fun i => 10 * Millisecond * (i : Int)) (factoryOf id)
        [ConnPoolOption.ofCap (WithCap 4 2),
         ConnPoolOption.ofTimeOut (WithTimeOut (50 * Millisecond))] = Outcome.ret w0 ∧
      Get (20 * Millisecond) (fun _ => true) w0 = Outcome.ret (w1, Conn.ref (id 0)) ∧
      Get (30 * Millisecond) (fun _ => true) w1 = Outcome.ret (w2, Conn.ref (id 1)) ∧
      id 0 ≠ id 1 ∧ w2.buf = [] ∧
      Put (100 * Millisecond) (Conn.ref (id 0)) w2 = Outcome.ret w3 ∧
      Put (100 * Millisecond) (Conn.ref (id 1)) w3 = Outcome.ret w4 ∧
      w4.buf = [{ conn := Conn.ref (id 0), time := 100 * Millisecond },
                { conn := Conn.ref (id 1), time := 100 * Millisecond }] ∧
      Get (100 * Millisecond + 60 * Millisecond) (fun _ => true) w4
        = Outcome.ret (w5, Conn.ref (id 2)) ∧
      id 2 ≠ id 0 ∧ id 2 ≠ id 1 ∧
      w5.made = w4.made + 1 ∧
      w5.log = w4.log ++ [Event.close (id 0), Event.close (id 1)] ∧
      w5.buf = [] :=
  scenario_cap_two 4 (fun i => 10 * Millisecond * (i : Int)) id
    (20 * Millisecond) (30 * Millisecond) (100 * Millisecond) (by decide) (by decide)
    (fun _ _ h => h) (by decide) (by decide)

/-! ## Single ownership -/

theorem bufIds_append (a b : List ConnWithTime) : bufIds (a ++ b) = bufIds a ++ bufIds b := by
  simp [bufIds]

theorem bufIds_cons_ref (e : ConnWithTime) (rest : List ConnWithTime) (id : Nat)
    (h : e.conn = Conn.ref id) : bufIds (e :: rest) = id :: bufIds rest := by
  simp [bufIds, h, Conn.id?]

/-- Every resource the warm-up loop buffers is the product of one of its factory calls. -/
theorem created_ids (clock : Nat → Int) (factory : Factory) : ∀ (n m i id : Nat),
    id ∈ bufIds (created clock factory m i n) →
    ∃ k, m ≤ k ∧ k < m + n ∧ factory k = some (Conn.ref id) := by
  intro n
  induction n with
  | zero => intro m i id h; simp [created_zero, bufIds] at h
  | succ n ih =>
    intro m i id h
    rw [created_succ, bufIds_append, List.mem_append] at h
    rcases h with h | h
    · cases hf : factory m with
      | none => simp [hf, bufIds] at h
      | some c =>
        cases c with
        | nil => simp [hf, bufIds, Conn.id?] at h
        | ref j =>
          simp [hf, bufIds, Conn.id?] at h
          subst h
          exact ⟨m, le_refl m, by omega, hf⟩
    · obtain ⟨k, h1, h2, h3⟩ := ih (m + 1) (i + 1) id h
      exact ⟨k, by omega, by omega, h3⟩

/-- With a factory of distinct products, the warm-up loop buffers no resource twice. -/
theorem created_nodup (clock : Nat → Int) (factory : Factory) (hd : DistinctProducts factory) :
    ∀ (n m i : Nat), (bufIds (created clock factory m i n)).Nodup := by
  intro n
  induction n with
  | zero => intro m i; simp [created_zero, bufIds]
  | succ n ih =>
    intro m i
    rw [created_succ, bufIds_append]
    cases hf : factory m with
    | none => simpa [bufIds] using ih (m + 1) (i + 1)
    | some c =>
      cases c with
      | nil => simpa [bufIds, Conn.id?] using ih (m + 1) (i + 1)
      | ref j =>
        have hhead : bufIds [({ conn := Conn.ref j, time := clock i } : ConnWithTime)] = [j] := by
          simp [bufIds, Conn.id?]
        simp only [hhead, List.singleton_append, List.nodup_cons]
        refine ⟨?_, ih (m + 1) (i + 1)⟩
        intro hmem
        obtain ⟨k, h1, -, h3⟩ := created_ids clock factory n (m + 1) (i + 1) j hmem
        have := hd m k j hf h3
        omega

/-- The pool `NewConnPool` returns, with nothing handed out yet, satisfies the ownership
bookkeeping. -/
theorem Owned_init (numCPU : Int) (clock : Nat → Int) (factory : Factory)
    (opts : List ConnPoolOption) (w : World) (hd : DistinctProducts factory)
    (h : NewConnPool numCPU clock factory opts = Outcome.ret w) : Owned factory w [] := by
  obtain ⟨cp, -, -, hfac, rfl⟩ := NewConnPool_ret_shape numCPU clock factory opts w h
  refine ⟨hfac, ?_, ?_⟩
  · rw [List.append_nil]
    exact created_nodup clock factory hd _ 0 0
  · intro id hid
    rw [List.append_nil] at hid
    obtain ⟨k, -, h2, h3⟩ := created_ids clock factory _ 0 0 id hid
    exact ⟨k, by simpa using h2, h3⟩

/-- A `Get` that returns keeps the ownership bookkeeping, the resource returned passing
from the holding area, or from the factory, to the caller. -/
theorem Owned_get (factory : Factory) (hd : DistinctProducts factory) (now : Int)
    (ping : Nat → Bool) (w w1 : World) (held : List Nat) (c : Conn)
    (hown : Owned factory w held) (h : Get now ping w = Outcome.ret (w1, c)) :
    Owned factory w1 (holdAfterGet c held) := by
  obtain ⟨hfac, hnd, hprod⟩ := hown
  cases hcl : w.pool.closed with
  | true =>
    rw [Get_of_closed now ping w hcl] at h
    injection h with h
    injection h with h1 h2
    subst h1 h2
    exact ⟨hfac, hnd, hprod⟩
  | false =>
    obtain ⟨disc, rest, hsplit, -, hpool, hcase⟩ := Get_ret_cases now ping w w1 c hcl h
    have hfac1 : w1.pool.factory = factory := by rw [hpool]; exact hfac
    rcases hcase with ⟨e0, id0, hrest, hc0, hc, -, -, hmade, -⟩ | ⟨-, hb, -, hend⟩
    · -- handed out from the holding area
      have hids : bufIds w.buf = bufIds disc ++ id0 :: bufIds w1.buf := by
        rw [hsplit, hrest, bufIds_append, bufIds_cons_ref e0 w1.buf id0 hc0]
      rw [hids] at hnd hprod
      subst hc
      have hperm : (bufIds w1.buf ++ id0 :: held).Perm (id0 :: bufIds w1.buf ++ held) := by
        simp
      have hsub : (id0 :: bufIds w1.buf ++ held).Sublist
          ((bufIds disc ++ id0 :: bufIds w1.buf) ++ held) := by
        rw [List.append_assoc]
        exact List.sublist_append_right _ _
      refine ⟨hfac1, ?_, ?_⟩
      · exact hperm.nodup_iff.2 (hnd.sublist hsub)
      · intro id hid
        have hid1 : id ∈ (bufIds disc ++ id0 :: bufIds w1.buf) ++ held :=
          hsub.subset (hperm.subset hid)
        obtain ⟨k, hk, hfk⟩ := hprod id hid1
        exact ⟨k, by rw [hmade]; exact hk, hfk⟩
    · -- the holding area was emptied
      have hheld : held.Nodup := hnd.sublist (List.sublist_append_right _ _)
      have hprodheld : ∀ id ∈ held, ∃ k, k < w.made ∧ factory k = some (Conn.ref id) :=
        fun id hid => hprod id (List.mem_append_right _ hid)
      have hb1 : bufIds w1.buf = [] := by rw [hb]; rfl
      rcases hend with ⟨-, hnil, hmade⟩ | ⟨-, hmade, hres⟩
      · subst hnil
        refine ⟨hfac1, ?_, ?_⟩
        · simpa [hb1, holdAfterGet] using hheld
        · intro id hid
          have hid1 : id ∈ held := by simpa [hb1, holdAfterGet] using hid
          obtain ⟨k, hk, hfk⟩ := hprodheld id hid1
          exact ⟨k, by rw [hmade]; exact hk, hfk⟩
      · cases c with
        | nil =>
          refine ⟨hfac1, ?_, ?_⟩
          · simpa [hb1, holdAfterGet] using hheld
          · intro id hid
            have hid1 : id ∈ held := by simpa [hb1, holdAfterGet] using hid
            obtain ⟨k, hk, hfk⟩ := hprodheld id hid1
            exact ⟨k, by rw [hmade]; omega, hfk⟩
        | ref id0 =>
          have hf0 : factory w.made = some (Conn.ref id0) := by
            rw [← hfac]
            cases hf : w.pool.factory w.made with
            | none => rw [hf] at hres; cases hres
            | some c0 => rw [hf] at hres; rw [hres]; rfl
          have hnew : id0 ∉ held := by
            intro hin
            obtain ⟨k, hk, hfk⟩ := hprodheld id0 hin
            have := hd k w.made id0 hfk hf0
            omega
          refine ⟨hfac1, ?_, ?_⟩
          · simp only [hb1, holdAfterGet, List.nil_append, List.nodup_cons]
            exact ⟨hnew, hheld⟩
          · intro id hid
            simp only [hb1, holdAfterGet, List.nil_append, List.mem_cons] at hid
            rcases hid with rfl | hid
            · exact ⟨w.made, by rw [hmade]; omega, hf0⟩
            · obtain ⟨k, hk, hfk⟩ := hprodheld id hid
              exact ⟨k, by rw [hmade]; omega, hfk⟩

/-- A `Put` that returns, of a resource the caller holds, keeps the ownership bookkeeping,
the resource leaving the caller. -/
theorem Owned_put (factory : Factory) (now : Int) (id : Nat) (w w1 : World)
    (held : List Nat) (hown : Owned factory w held) (hheld : id ∈ held)
    (h : Put now (Conn.ref id) w = Outcome.ret w1) :
    Owned factory w1 (held.erase id) := by
  obtain ⟨hfac, hnd, hprod⟩ := hown
  rcases Put_ret_cases now (Conn.ref id) w w1 h with ⟨-, hw⟩ | ⟨-, -, -, w0, hp, hm, -, rfl⟩
  · rw [hw]
    have hsub : (bufIds w.buf ++ held.erase id).Sublist (bufIds w.buf ++ held) :=
      List.Sublist.append_left (List.erase_sublist id held) _
    exact ⟨hfac, hnd.sublist hsub, fun j hj => hprod j (hsub.subset hj)⟩
  · have hids : bufIds (w0.setBuf (w.buf ++ [{ conn := Conn.ref id, time := now }])).buf
        = bufIds w.buf ++ [id] := by
      rw [World.setBuf_buf, bufIds_append]
      simp [bufIds, Conn.id?]
    have hperm : ((bufIds w.buf ++ [id]) ++ held.erase id).Perm (bufIds w.buf ++ held) := by
      rw [List.append_assoc]
      exact List.Perm.append_left _ (List.perm_cons_erase hheld).symm
    refine ⟨?_, ?_, ?_⟩
    · show w0.pool.factory = factory
      rw [hp]; exact hfac
    · rw [hids]
      exact hperm.nodup_iff.2 hnd
    · intro j hj
      rw [hids] at hj
      obtain ⟨k, hk, hfk⟩ := hprod j (hperm.subset hj)
      exact ⟨k, by show k < w0.made; rw [hm]; exact hk, hfk⟩

/-- A `Close` that returns keeps the ownership bookkeeping. -/
theorem Owned_close (factory : Factory) (w w1 : World) (held : List Nat)
    (hown : Owned factory w held) (h : Close w = Outcome.ret w1) :
    Owned factory w1 held := by
  obtain ⟨hfac, hnd, hprod⟩ := hown
  rcases Close_ret_cases w w1 h with ⟨-, hw⟩ | ⟨-, -, rfl⟩
  · rw [hw]
    exact ⟨hfac, hnd, hprod⟩
  · have hsub : held.Sublist (bufIds w.buf ++ held) := List.sublist_append_right _ _
    refine ⟨hfac, ?_, ?_⟩
    · show (bufIds [] ++ held).Nodup
      simpa [bufIds] using hnd.sublist hsub
    · intro j hj
      have hj1 : j ∈ held := by
        have : j ∈ bufIds [] ++ held := hj
        simpa [bufIds] using this
      exact hprod j (hsub.subset hj1)

/-- Every world of a disciplined run satisfies the ownership bookkeeping. -/
theorem Disciplined.owned {numCPU : Int} {clock : Nat → Int} {factory : Factory}
    {opts : List ConnPoolOption} {w : World} {held : List Nat}
    (hd : DistinctProducts factory) (h : Disciplined numCPU clock factory opts w held) :
    Owned factory w held := by
  induction h with
  | init w hinit => exact Owned_init numCPU clock factory opts w hd hinit
  | get w w1 held now ping c _ hget ih => exact Owned_get factory hd now ping w w1 held c ih hget
  | put w w1 held now id _ hheld hput ih => exact Owned_put factory now id w w1 held ih hheld hput
  | close w w1 held _ hclose ih => exact Owned_close factory w w1 held ih hclose

/-- C15.  Single ownership.  Let the factory never produce the same resource twice, and
let callers put back only resources they hold from a `Get`.  In every world reached from
`NewConnPool` by `Get`, `Put` and `Close` calls, no resource occurs twice in the holding
area, no resource held by a caller occurs in it, and a resource that a further `Get`
returns is not in the holding area this `Get` leaves. -/
theorem single_ownership (numCPU : Int) (clock : Nat → Int) (factory : Factory)
    (opts : List ConnPoolOption) (w : World) (held : List Nat)
    (hd : DistinctProducts factory) (h : Disciplined numCPU clock factory opts w held) :
    (bufIds w.buf).Nodup ∧
    (∀ id, (w.buf.map ConnWithTime.conn).count (Conn.ref id) ≤ 1) ∧
    (∀ id ∈ held, Conn.ref id ∉ w.buf.map ConnWithTime.conn) ∧
    ∀ (now : Int) (ping : Nat → Bool) (w1 : World) (id : Nat),
      Get now ping w = Outcome.ret (w1, Conn.ref id) →
      Conn.ref id ∉ w1.buf.map ConnWithTime.conn := by
  have hmem : ∀ (q : List ConnWithTime) (id : Nat),
      Conn.ref id ∈ q.map ConnWithTime.conn → id ∈ bufIds q := by
    intro q id hin
    obtain ⟨e, he, hc⟩ := List.mem_map.1 hin
    exact List.mem_filterMap.2 ⟨e, he, by rw [hc]; rfl⟩
  have hcount : ∀ (q : List ConnWithTime) (id : Nat),
      (q.map ConnWithTime.conn).count (Conn.ref id) = (bufIds q).count id := by
    intro q id
    induction q with
    | nil => rfl
    | cons e rest ih =>
      cases hc : e.conn with
      | nil => simpa [bufIds, hc, Conn.id?, List.count_cons] using ih
      | ref j =>
        by_cases hj : j = id
        · subst hj
          simpa [bufIds, hc, Conn.id?, List.count_cons] using ih
        · have hj1 : ¬ (Conn.ref j = Conn.ref id) := fun h => hj (by injection h)
          simpa [bufIds, hc, Conn.id?, List.count_cons, hj, hj1] using ih
  obtain ⟨-, hnd, -⟩ := Disciplined.owned hd h
  have hbuf : (bufIds w.buf).Nodup := hnd.sublist (List.sublist_append_left _ _)
  refine ⟨hbuf, ?_, ?_, ?_⟩
  · intro id
    rw [hcount]
    exact List.nodup_iff_count_le_one.1 hbuf id
  · intro id hid hin
    exact (List.nodup_append.1 hnd).2.2 (hmem _ _ hin) hid
  · intro now ping w1 id hget hin
    obtain ⟨-, hnd1, -⟩ := Disciplined.owned hd
      (Disciplined.get w w1 held now ping (Conn.ref id) h hget)
    have h1 : id ∈ bufIds w1.buf := hmem _ _ hin
    have h2 : id ∈ holdAfterGet (Conn.ref id) held := by simp [holdAfterGet]
    exact (List.nodup_append.1 hnd1).2.2 h1 h2

/-- Witness of C15: the pool built with `WithCap(2)` from the factory of new objects; a
caller takes resource 0 and puts it back, which leaves resource 1 and then resource 0
buffered and nothing held. -/
theorem single_ownership_witness :
    ∃ (w : World) (held : List Nat),
      DistinctProducts freshFactory ∧
      Disciplined 4 (fun _ => 0) freshFactory [ConnPoolOption.ofCap (WithCap 4 2)] w held ∧
      w.buf.map ConnWithTime.conn = [Conn.ref 1, Conn.ref 0] ∧ held = [] ∧
      ((bufIds w.buf).Nodup ∧
        (∀ id, (w.buf.map ConnWithTime.conn).count (Conn.ref id) ≤ 1) ∧
        (∀ id ∈ held, Conn.ref id ∉ w.buf.map ConnWithTime.conn) ∧
        ∀ (now : Int) (ping : Nat → Bool) (w1 : World) (id : Nat),
          Get now ping w = Outcome.ret (w1, Conn.ref id) →
          Conn.ref id ∉ w1.buf.map ConnWithTime.conn) :=
  have hd : DistinctProducts freshFactory := by
    intro j k id hj hk
    simp only [freshFactory, Option.some.injEq, Conn.ref.injEq] at hj hk
    omega
  have hrun := Disciplined.put _ _ _ 7 0
    (Disciplined.get _ _ _ 5 (fun _ => true) (Conn.ref 0)
      (@Disciplined.init 4 (fun _ => 0) freshFactory
        [ConnPoolOption.ofCap (WithCap 4 2)] _ rfl) rfl)
    (by simp [holdAfterGet]) rfl
  ⟨_, _, hd, hrun, rfl, rfl, single_ownership _ _ _ _ _ _ hd hrun⟩

/-! ## Termination of Get -/

/-- `Get` never waits: its receive is the non-blocking case of a `select`. -/
theorem Get_not_block (now : Int) (ping : Nat → Bool) (w wb : World) :
    Get now ping w ≠ Outcome.block wb := by
  intro h
  cases hcl : w.pool.closed with
  | true => rw [Get_of_closed now ping w hcl] at h; cases h
  | false =>
    rw [Get_scan now ping w hcl] at h
    cases hdw : w.buf.dropWhile (discards now w.pool.connTimeOut ping) with
    | nil =>
      rw [hdw] at h
      simp only [finish] at h
      cases hch : w.pool.connChan.closed <;> cases hf : w.pool.factory w.made <;>
        simp [hch, hf] at h
    | cons e0 post =>
      rw [hdw] at h
      cases hc0 : e0.conn <;> simp [finish, hc0] at h

/-- On a holding area without nil values `Get` returns. -/
theorem Get_returns (now : Int) (ping : Nat → Bool) (w : World) (hnn : NoNil w.buf) :
    ∃ (w1 : World) (c : Conn), Get now ping w = Outcome.ret (w1, c) := by
  cases hcl : w.pool.closed with
  | true => exact ⟨w, Conn.nil, Get_of_closed now ping w hcl⟩
  | false =>
    rw [Get_scan now ping w hcl]
    cases hdw : w.buf.dropWhile (discards now w.pool.connTimeOut ping) with
    | nil =>
      simp only [finish]
      cases hch : w.pool.connChan.closed <;> cases hf : w.pool.factory w.made <;>
        simp
    | cons e0 post =>
      have hmem : e0 ∈ w.buf := by
        have hsub : (w.buf.dropWhile (discards now w.pool.connTimeOut ping)).Sublist w.buf :=
          List.dropWhile_sublist _
        exact hsub.subset (by rw [hdw]; simp)
      cases hc0 : e0.conn with
      | nil => exact absurd hc0 (hnn e0 hmem)
      | ref id => simp [finish, hc0]

/-- C16 (counterexample).  The pool is built with `WithCap(2)` from a factory whose third
call fails.  Two `Get`s take the two warm-up resources, a third `Get` calls the factory,
which fails, and returns nil; the caller puts that nil back at time 2, and it is buffered.
The next `Get` pops the nil entry and panics on `Ping`: it returns neither a resource
nor nil. -/
theorem Get_panics_on_nil_entry :
    ∃ w0 w1 w2 w3 w4 : World,
      NewConnPool 4 (fun _ => 0) failsThird [ConnPoolOption.ofCap (WithCap 4 2)]
        = Outcome.ret w0 ∧
      Get 1 (fun _ => true) w0 = Outcome.ret (w1, Conn.ref 0) ∧
      Get 1 (fun _ => true) w1 = Outcome.ret (w2, Conn.ref 1) ∧
      Get 1 (fun _ => true) w2 = Outcome.ret (w3, Conn.nil) ∧
      Put 2 Conn.nil w3 = Outcome.ret w4 ∧
      w4.pool.closed = false ∧ w4.buf = [{ conn := Conn.nil, time := 2 }] ∧
      Get 3 (fun _ => true) w4 = Outcome.panicked :=
  ⟨_, _, _, _, _, rfl, rfl, rfl, rfl, rfl, rfl, rfl, rfl⟩

/-- C16 (amended).  `Get` never waits, in any world.  In every world whose holding area
holds no nil value, for every clock value and factory, `Get` returns a resource or nil,
having popped a head part of the holding area (at most all of it) and called the factory
at most once; a resource it returns is one whose `Ping` it has just called with success,
the factory not being called, or the product of the one factory call it made. -/
theorem Get_terminates (now : Int) (ping : Nat → Bool) (w : World) :
    (∀ wb : World, Get now ping w ≠ Outcome.block wb) ∧
    (NoNil w.buf →
      ∃ (w1 : World) (c : Conn) (popped : List ConnWithTime),
        Get now ping w = Outcome.ret (w1, c) ∧
        w.buf = popped ++ w1.buf ∧
        (w1.made = w.made ∨ w1.made = w.made + 1) ∧
        ∀ id, c = Conn.ref id →
          (ping id = true ∧ w1.made = w.made ∧
            ∃ evs, w1.log = w.log ++ evs ++ [Event.ping id]) ∨
          (w1.made = w.made + 1 ∧ w.pool.factory w.made = some (Conn.ref id))) := by
  refine ⟨fun wb => Get_not_block now ping w wb, ?_⟩
  intro hnn
  obtain ⟨w1, c, hget⟩ := Get_returns now ping w hnn
  cases hcl : w.pool.closed with
  | true =>
    rw [Get_of_closed now ping w hcl] at hget
    injection hget with hget
    injection hget with h1 h2
    subst h1 h2
    exact ⟨w, Conn.nil, [], Get_of_closed now ping w hcl, rfl, Or.inl rfl,
      fun id hid => by cases hid⟩
  | false =>
    obtain ⟨disc, rest, hsplit, -, -, hcase⟩ := Get_ret_cases now ping w w1 c hcl hget
    rcases hcase with ⟨e0, id0, hrest, -, hc, -, hp0, hmade, hlog⟩ | ⟨hrest, hb, -, hend⟩
    · refine ⟨w1, c, disc ++ [e0], hget, ?_, Or.inl hmade, ?_⟩
      · rw [hsplit, hrest]; simp
      · intro id hid
        rw [hc] at hid
        injection hid with hid
        subst hid
        exact Or.inl ⟨hp0, hmade, _, hlog⟩
    · refine ⟨w1, c, disc, hget, ?_, ?_, ?_⟩
      · rw [hsplit, hrest, hb]
      · rcases hend with ⟨-, -, hm⟩ | ⟨-, hm, -⟩
        · exact Or.inl hm
        · exact Or.inr hm
      · intro id hid
        rcases hend with ⟨-, hnil, -⟩ | ⟨-, hm, hres⟩
        · rw [hid] at hnil; cases hnil
        · refine Or.inr ⟨hm, ?_⟩
          cases hf : w.pool.factory w.made with
          | none => rw [hf, hid] at hres; cases hres
          | some c0 =>
            rw [hf] at hres
            rw [← hid, hres]
            rfl

/-- Witness of C16 (amended): on the sample pool at time 10, with resource 0 failing the
ping, `Get` pops both entries and returns resource 1. -/
theorem Get_terminates_witness :
    NoNil sampleOpen.buf ∧
    Get 10 (fun id => id != 0) sampleOpen = Outcome.ret
      ({ (sampleOpen.setBuf []) with
          log := [Event.ping 0, Event.close 0, Event.ping 1] }, Conn.ref 1) ∧
    ((∀ wb : World, Get 10 (fun id => id != 0) sampleOpen ≠ Outcome.block wb) ∧
      ∃ (w1 : World) (c : Conn) (popped : List ConnWithTime),
        Get 10 (fun id => id != 0) sampleOpen = Outcome.ret (w1, c) ∧
        sampleOpen.buf = popped ++ w1.buf ∧
        (w1.made = sampleOpen.made ∨ w1.made = sampleOpen.made + 1) ∧
        ∀ id, c = Conn.ref id →
          ((fun id => id != 0) id = true ∧ w1.made = sampleOpen.made ∧
            ∃ evs, w1.log = sampleOpen.log ++ evs ++ [Event.ping id]) ∨
          (w1.made = sampleOpen.made + 1 ∧
            sampleOpen.pool.factory sampleOpen.made = some (Conn.ref id))) :=
  have hnn : NoNil sampleOpen.buf := by
    intro e he
    simp [sampleOpen, World.buf] at he
    rcases he with rfl | rfl <;> simp
  ⟨hnn, rfl, (Get_terminates 10 (fun id => id != 0) sampleOpen).1,
    (Get_terminates 10 (fun id => id != 0) sampleOpen).2 hnn⟩

/-! ## Panics and the nil value -/

/-- A factory whose successful calls return objects fills the warm-up buffer with
objects. -/
theorem created_noNil (clock : Nat → Int) (factory : Factory)
    (hfac : ∀ k, factory k ≠ some Conn.nil) (m i n : Nat) :
    NoNil (created clock factory m i n) := by
  intro e he
  unfold created at he
  obtain ⟨j, -, hj⟩ := List.mem_filterMap.1 he
  cases hf : factory (m + j) with
  | none => simp [hf] at hj
  | some c =>
    simp only [hf, Option.map_some', Option.some.injEq] at hj
    subst hj
    intro hc
    exact hfac (m + j) (by rw [hf]; exact congrArg some hc)

/-- The pool `NewConnPool` returns is safe when the factory's successful calls return
objects. -/
theorem Safe_init (numCPU : Int) (clock : Nat → Int) (factory : Factory)
    (opts : List ConnPoolOption) (w : World) (hfac : ∀ k, factory k ≠ some Conn.nil)
    (h : NewConnPool numCPU clock factory opts = Outcome.ret w) : w.Safe := by
  refine ⟨NewConnPool_inv numCPU clock factory opts w h, ?_, ?_⟩
  · obtain ⟨cp, -, -, -, rfl⟩ := NewConnPool_ret_shape numCPU clock factory opts w h
    exact created_noNil clock factory hfac 0 0 _
  · obtain ⟨cp, -, -, hf, rfl⟩ := NewConnPool_ret_shape numCPU clock factory opts w h
    intro k
    show cp.factory k ≠ some Conn.nil
    rw [hf]
    exact hfac k

/-- A call that returns, other than a `Put` of nil, keeps the world safe. -/
theorem Safe_step (op : Op) (w w1 : World) (hsafe : w.Safe) (hop : op.putsNil = false)
    (h : step op w = Outcome.ret w1) : w1.Safe := by
  obtain ⟨hinv, hnn, hfac⟩ := hsafe
  refine ⟨step_inv op w w1 hinv h, ?_, ?_⟩
  · cases op with
    | get now ping =>
      simp only [step] at h
      cases hg : Get now ping w with
      | block wb => simp [hg] at h
      | panicked => simp [hg] at h
      | ret r =>
        obtain ⟨w2, c⟩ := r
        simp only [hg] at h
        injection h with h
        subst h
        cases hcl : w.pool.closed with
        | true =>
          rw [Get_of_closed now ping w hcl] at hg
          injection hg with hg
          injection hg with hg _
          subst hg
          exact hnn
        | false =>
          obtain ⟨disc, rest, hsplit, -, -, hcase⟩ := Get_ret_cases now ping w w2 c hcl hg
          rcases hcase with ⟨e0, id0, hrest, -⟩ | ⟨-, hb, -⟩
          · intro e he
            exact hnn e (by rw [hsplit, hrest]; simp [he])
          · rw [hb]
            intro e he
            cases he
    | put now conn =>
      simp only [step] at h
      rcases Put_ret_cases now conn w w1 h with ⟨-, hw⟩ | ⟨-, -, -, w0, -, -, -, rfl⟩
      · rw [hw]; exact hnn
      · intro e he
        rw [World.setBuf_buf] at he
        rcases List.mem_append.1 he with he | he
        · exact hnn e he
        · rw [List.mem_singleton] at he
          subst he
          intro hc
          have hc1 : conn = Conn.nil := hc
          subst hc1
          simp [Op.putsNil] at hop
    | close =>
      simp only [step] at h
      rcases Close_ret_cases w w1 h with ⟨-, hw⟩ | ⟨-, -, rfl⟩
      · rw [hw]; exact hnn
      · intro e he
        cases he
  · obtain ⟨-, -, hf, -⟩ := step_frame op w w1 h
    intro k
    rw [hf]
    exact hfac k

/-- In a safe world no call panics, except possibly a `Put` of nil. -/
theorem Safe_no_panic (op : Op) (w : World) (hsafe : w.Safe) (hop : op.putsNil = false) :
    step op w ≠ Outcome.panicked := by
  obtain ⟨⟨-, -, -, hflags⟩, hnn, -⟩ := hsafe
  cases op with
  | get now ping =>
    obtain ⟨w1, c, hget⟩ := Get_returns now ping w hnn
    simp [step, hget]
  | put now conn =>
    cases hcl : w.pool.closed with
    | true => simp [step, Put_of_closed now conn w hcl]
    | false =>
      have hch : w.pool.connChan.closed = false := by rw [hflags, hcl]
      cases conn with
      | nil => simp [Op.putsNil] at hop
      | ref id =>
        simp only [step, Put, hcl, Bool.false_eq_true, if_false, sendTo, World.logEvent_pool,
          hch]
        split_ifs <;> simp
  | close =>
    cases hcl : w.pool.closed with
    | true => simp [step, Close, hcl]
    | false =>
      have hch : w.pool.connChan.closed = false := by rw [hflags, hcl]
      simp [step, Close_of_open w ⟨hcl, hch⟩ hnn]

/-- No run from a safe world panics when it never puts nil; the worlds it reaches are
safe. -/
theorem runOps_safe : ∀ (ops : List Op) (w : World), w.Safe →
    (∀ op ∈ ops, op.putsNil = false) →
    runOps ops w ≠ Outcome.panicked ∧ ∀ w1, runOps ops w = Outcome.ret w1 → w1.Safe := by
  intro ops
  induction ops with
  | nil =>
    intro w hsafe _
    refine ⟨by simp [runOps], ?_⟩
    intro w1 h
    simp only [runOps] at h
    injection h with h
    rw [← h]
    exact hsafe
  | cons op rest ih =>
    intro w hsafe hops
    have hop := hops op (List.mem_cons_self _ _)
    have hrest : ∀ o ∈ rest, o.putsNil = false := fun o ho => hops o (List.mem_cons_of_mem _ ho)
    cases hs : step op w with
    | ret w1 =>
      have h1 := ih w1 (Safe_step op w w1 hsafe hop hs) hrest
      simpa [runOps, hs] using h1
    | block wb => simp [runOps, hs]
    | panicked => exact absurd hs (Safe_no_panic op w hsafe hop)

/-- C18 (counterexample).  The pool is built with `WithCap(2)` from a factory whose
successful calls return objects and whose third call fails.  After two `Get`s the third
`Get` returns nil; the caller passes that nil to `Put`, which buffers it.  Then a `Get`
panics (it calls `Ping` on nil), a `Close` panics (it calls `Close` on nil), and after
a second `Put(nil)` has filled the holding area a third `Put(nil)` panics (it calls
`Close` on nil). -/
theorem runOps_panics_after_Put_nil :
    ∃ w0 : World,
      NewConnPool 4 (fun _ => 0) failsThird [ConnPoolOption.ofCap (WithCap 4 2)]
        = Outcome.ret w0 ∧
      (∀ k, failsThird k ≠ some Conn.nil) ∧
      runOps [Op.get 1 (fun _ => true), Op.get 1 (fun _ => true), Op.get 1 (fun _ => true),
        Op.put 2 Conn.nil, Op.get 3 (fun _ => true)] w0 = Outcome.panicked ∧
      runOps [Op.get 1 (fun _ => true), Op.get 1 (fun _ => true), Op.get 1 (fun _ => true),
        Op.put 2 Conn.nil, Op.close] w0 = Outcome.panicked ∧
      runOps [Op.get 1 (fun _ => true), Op.get 1 (fun _ => true), Op.get 1 (fun _ => true),
        Op.put 2 Conn.nil, Op.put 2 Conn.nil, Op.put 2 Conn.nil] w0 = Outcome.panicked :=
  ⟨_, rfl, fun k => by unfold failsThird; split_ifs <;> simp, rfl, rfl, rfl⟩

/-- C18 (amended).  Let the factory's successful calls return non-nil resources.  On the
pool `NewConnPool` returns, no sequence of `Get`, `Put` and `Close` calls in which nil is
never passed to `Put` panics: the pool never calls `Ping` or `Close` on nil, and no nil
value is buffered in the world such a sequence ends in. -/
theorem runOps_no_panic (numCPU : Int) (clock : Nat → Int) (factory : Factory)
    (opts : List ConnPoolOption) (ops : List Op) (w0 : World)
    (hfac : ∀ k, factory k ≠ some Conn.nil)
    (hnew : NewConnPool numCPU clock factory opts = Outcome.ret w0)
    (hops : ∀ op ∈ ops, op.putsNil = false) :
    runOps ops w0 ≠ Outcome.panicked ∧
    ∀ w1, runOps ops w0 = Outcome.ret w1 → NoNil w1.buf := by
  obtain ⟨h1, h2⟩ := runOps_safe ops w0
    (Safe_init numCPU clock factory opts w0 hfac hnew) hops
  exact ⟨h1, fun w1 hw1 => (h2 w1 hw1).2.1⟩

/-- Witness of C18 (amended): on the pool of the counterexample, the caller keeps the nil
of the failed `Get` to itself, puts resource 0 back and closes the pool. -/
theorem runOps_no_panic_witness :
    ∃ w0 : World,
      NewConnPool 4 (fun _ => 0) failsThird [ConnPoolOption.ofCap (WithCap 4 2)]
        = Outcome.ret w0 ∧
      (runOps [Op.get 1 (fun _ => true), Op.get 1 (fun _ => true), Op.get 1 (fun _ => true),
          Op.put 2 (Conn.ref 0), Op.close] w0 ≠ Outcome.panicked ∧
        ∀ w1, runOps [Op.get 1 (fun _ => true), Op.get 1 (fun _ => true),
          Op.get 1 (fun _ => true), Op.put 2 (Conn.ref 0), Op.close] w0 = Outcome.ret w1 →
          NoNil w1.buf) :=
  ⟨_, rfl,
    runOps_no_panic 4 (fun _ => 0) failsThird [ConnPoolOption.ofCap (WithCap 4 2)]
      [Op.get 1 (fun _ => true), Op.get 1 (fun _ => true), Op.get 1 (fun _ => true),
        Op.put 2 (Conn.ref 0), Op.close] _
      (fun k => by unfold failsThird; split_ifs <;> simp) rfl
      (by
        intro op hop
        simp only [List.mem_cons, List.mem_singleton, List.not_mem_nil, or_false] at hop
        rcases hop with rfl | rfl | rfl | rfl | rfl <;> rfl)⟩

/-! ## Get is first-in-first-out -/

/-- An object entry that does not qualify is discarded. -/
theorem discards_of_not_qualifies {now timeout : Int} {ping : Nat → Bool} {e : ConnWithTime}
    (hne : e.conn ≠ Conn.nil) (hq : qualifies now timeout ping e = false) :
    discards now timeout ping e = true := by
  unfold qualifies at hq
  unfold discards
  cases hc : e.conn with
  | nil => exact absurd hc hne
  | ref id =>
    simp only [hc, Bool.and_eq_false_imp, decide_eq_true_eq] at hq
    simp only [Bool.or_eq_true, decide_eq_true_eq, Bool.not_eq_true']
    by_cases hs : now - e.time > timeout
    · exact Or.inl hs
    · exact Or.inr (hq (not_lt.mp hs))

/-- An entry that qualifies holds an object and is not discarded. -/
theorem not_discards_of_qualifies {now timeout : Int} {ping : Nat → Bool} {e : ConnWithTime}
    (hq : qualifies now timeout ping e = true) :
    ∃ id, e.conn = Conn.ref id ∧ discards now timeout ping e = false := by
  unfold qualifies at hq
  unfold discards
  cases hc : e.conn with
  | nil => simp [hc] at hq
  | ref id =>
    simp only [hc, Bool.and_eq_true, decide_eq_true_eq] at hq
    refine ⟨id, rfl, ?_⟩
    simp only [Bool.or_eq_false_iff, decide_eq_false_iff_not, not_lt, Bool.not_eq_false']
    exact hq

/-- Among the calls made on discarded entries, the `Close` calls are one per entry, in
queue order. -/
theorem filter_isClose_discardEvents (now timeout : Int) : ∀ q : List ConnWithTime,
    (discardEvents now timeout q).filter Event.isClose = closeEvents q := by
  intro q
  induction q with
  | nil => rfl
  | cons e rest ih =>
    cases hc : e.conn with
    | nil => simpa [discardEvents, closeEvents, hc] using ih
    | ref id =>
      simp only [discardEvents, closeEvents, hc, List.filter_append, ih]
      split_ifs <;> simp [Event.isClose]

/-- When the clock stands still during the call, the loop is `getLoop`. -/
theorem getLoopAt_const (now : Int) (ping : Nat → Bool) :
    ∀ (q : List ConnWithTime) (k : Nat) (w : World),
      getLoopAt (fun _ => now) ping k q w = getLoop now ping q w := by
  intro q
  induction q with
  | nil => intro k w; rfl
  | cons e rest ih =>
    intro k w
    simp only [getLoopAt, getLoop, ih]

/-- `Get now` is `GetAt` for the clock that stands at `now`. -/
theorem GetAt_const (now : Int) (ping : Nat → Bool) (w : World) :
    GetAt (fun _ => now) ping w = Get now ping w := by
  simp only [GetAt, Get, getLoopAt_const]

/-- Among the calls made on discarded entries, the `Close` calls are one per entry, in
queue order, whatever the clock. -/
theorem filter_isClose_discardEventsAt (clock : Nat → Int) (timeout : Int) :
    ∀ (q : List ConnWithTime) (k : Nat),
      (discardEventsAt clock timeout k q).filter Event.isClose = closeEvents q := by
  intro q
  induction q with
  | nil => intro k; rfl
  | cons e rest ih =>
    intro k
    cases hc : e.conn with
    | nil => simpa [discardEventsAt, closeEvents, hc] using ih (k + 1)
    | ref id =>
      simp only [discardEventsAt, closeEvents, hc, List.filter_append, ih]
      split_ifs <;> simp [Event.isClose]

/-- Every call made on discarded entries is a `Ping` or a `Close` of the resource of one
of them. -/
theorem mem_discardEventsAt (clock : Nat → Int) (timeout : Int) :
    ∀ (q : List ConnWithTime) (k : Nat) (ev : Event),
      ev ∈ discardEventsAt clock timeout k q →
      ∃ id, Conn.ref id ∈ q.map ConnWithTime.conn ∧ (ev = Event.ping id ∨ ev = Event.close id) := by
  intro q
  induction q with
  | nil => intro k ev h; cases h
  | cons e rest ih =>
    intro k ev h
    cases hc : e.conn with
    | nil =>
      simp only [discardEventsAt, hc] at h
      obtain ⟨id, hid, hev⟩ := ih (k + 1) ev h
      exact ⟨id, by simp [hid], hev⟩
    | ref id =>
      simp only [discardEventsAt, hc, List.mem_append] at h
      rcases h with h | h
      · refine ⟨id, by simp [hc], ?_⟩
        split_ifs at h
        · simp only [List.mem_singleton] at h
          exact Or.inr h
        · simp only [List.mem_cons, List.mem_singleton, List.not_mem_nil, or_false] at h
          exact h
      · obtain ⟨id1, hid, hev⟩ := ih (k + 1) ev h
        exact ⟨id1, by simp [hid], hev⟩

/-- The loop of `Get` discards, one after the other, the entries at the head of the
channel that hold an object and do not qualify at their clock reading. -/
theorem getLoopAt_discard (clock : Nat → Int) (ping : Nat → Bool) :
    ∀ (pre : List ConnWithTime) (k : Nat) (rest : List ConnWithTime) (w : World),
      w.buf = pre ++ rest → NoNil pre →
      (∀ (j : Nat) (x : ConnWithTime), pre[j]? = some x →
        qualifies (clock (k + j)) w.pool.connTimeOut ping x = false) →
      getLoopAt clock ping k (pre ++ rest) w
        = getLoopAt clock ping (k + pre.length) rest
            { w.setBuf rest with
              log := w.log ++ discardEventsAt clock w.pool.connTimeOut k pre } := by
  intro pre
  induction pre with
  | nil =>
    intro k rest w hbuf _ _
    have hw : w.setBuf rest = w := by
      rw [List.nil_append] at hbuf
      rw [← hbuf]
      exact World.setBuf_self w
    simp only [List.nil_append, discardEventsAt, List.append_nil, List.length_nil,
      Nat.add_zero]
    congr 1
    exact hw.symm
  | cons e pre1 ih =>
    intro k rest w hbuf hnil hq
    have hne : e.conn ≠ Conn.nil := hnil e (List.mem_cons_self _ _)
    have hnil1 : NoNil pre1 := fun x hx => hnil x (List.mem_cons_of_mem _ hx)
    have hqe : qualifies (clock k) w.pool.connTimeOut ping e = false := by
      have := hq 0 e (by simp)
      simpa using this
    have hq1 : ∀ (j : Nat) (x : ConnWithTime), pre1[j]? = some x →
        qualifies (clock (k + 1 + j)) w.pool.connTimeOut ping x = false := by
      intro j x hx
      have := hq (j + 1) x (by simpa using hx)
      have harith : k + 1 + j = k + (j + 1) := by omega
      rw [harith]
      exact this
    have hlen : k + (e :: pre1).length = k + 1 + pre1.length := by
      simp only [List.length_cons]; omega
    rw [hlen]
    cases hc : e.conn with
    | nil => exact absurd hc hne
    | ref id =>
      by_cases hs : clock k - e.time > w.pool.connTimeOut
      · have hs1 : clock k - e.time > (w.setBuf (pre1 ++ rest)).pool.connTimeOut := hs
        have hstep : getLoopAt clock ping k (e :: pre1 ++ rest) w
            = getLoopAt clock ping (k + 1) (pre1 ++ rest)
                ((w.setBuf (pre1 ++ rest)).logEvent (Event.close id)) := by
          show getLoopAt clock ping k (e :: (pre1 ++ rest)) w = _
          simp only [getLoopAt, hs1, if_true, hc]
        rw [hstep, ih (k + 1) rest ((w.setBuf (pre1 ++ rest)).logEvent (Event.close id))
          rfl hnil1 hq1]
        congr 1
        simp only [discardEventsAt, hc, hs, if_true, World.setBuf, World.logEvent,
          List.append_assoc]
      · have hs1 : ¬ clock k - e.time > (w.setBuf (pre1 ++ rest)).pool.connTimeOut := hs
        have hp : ping id = false := by
          unfold qualifies at hqe
          simp only [hc, Bool.and_eq_false_imp, decide_eq_true_eq] at hqe
          exact hqe (not_lt.mp hs)
        have hstep : getLoopAt clock ping k (e :: pre1 ++ rest) w
            = getLoopAt clock ping (k + 1) (pre1 ++ rest)
                (((w.setBuf (pre1 ++ rest)).logEvent (Event.ping id)).logEvent
                  (Event.close id)) := by
          show getLoopAt clock ping k (e :: (pre1 ++ rest)) w = _
          simp only [getLoopAt, hs1, if_false, hc, hp, Bool.false_eq_true]
        rw [hstep, ih (k + 1) rest
          (((w.setBuf (pre1 ++ rest)).logEvent (Event.ping id)).logEvent (Event.close id))
          rfl hnil1 hq1]
        congr 1
        simp only [discardEventsAt, hc, hs, if_false, World.setBuf, World.logEvent,
          List.append_assoc, List.cons_append, List.nil_append]

/-- C19 (counterexample).  Two runs in which an entry of the holding area is fresh and
answers the ping at the time of the call, and `Get` does not return it.

First run: on the pool of capacity two whose factory fails at its third call, the nil
returned by the failed third `Get` is put back, and then resource 0.  The holding area is
then a nil entry followed by an entry of resource 0, which qualifies; `Get` at time 3
panics on the nil entry before it.

Second run: the pool has timeout 50 and two entries stamped 1, and resource 0 fails the
ping.  `Get` is called when the clock reads 50, so the entry of resource 1 qualifies at
that time; the clock reads 55 when `Get` examines it, so `Get` closes it as stale, calls
the factory and returns the new resource 2. -/
theorem Get_panics_before_qualifying_entry :
    (∃ w0 w1 w2 w3 w4 w5 : World,
      NewConnPool 4 (fun _ => 0) failsThird [ConnPoolOption.ofCap (WithCap 4 2)]
        = Outcome.ret w0 ∧
      GetAt (fun _ => 1) (fun _ => true) w0 = Outcome.ret (w1, Conn.ref 0) ∧
      GetAt (fun _ => 1) (fun _ => true) w1 = Outcome.ret (w2, Conn.ref 1) ∧
      GetAt (fun _ => 1) (fun _ => true) w2 = Outcome.ret (w3, Conn.nil) ∧
      Put 2 Conn.nil w3 = Outcome.ret w4 ∧
      Put 2 (Conn.ref 0) w4 = Outcome.ret w5 ∧
      w5.pool.closed = false ∧ w5.pool.connChan.closed = false ∧
      w5.buf = [{ conn := Conn.nil, time := 2 }, { conn := Conn.ref 0, time := 2 }] ∧
      qualifies 3 w5.pool.connTimeOut (fun _ => true) { conn := Conn.ref 0, time := 2 }
        = true ∧
      GetAt (fun _ => 3) (fun _ => true) w5 = Outcome.panicked) ∧
    (∃ w0 w1 : World,
      NewConnPool 4 (fun _ => 1) freshFactory
        [ConnPoolOption.ofCap (WithCap 4 2), ConnPoolOption.ofTimeOut (WithTimeOut 50)]
        = Outcome.ret w0 ∧
      w0.pool.connTimeOut = 50 ∧
      w0.buf = [{ conn := Conn.ref 0, time := 1 }, { conn := Conn.ref 1, time := 1 }] ∧
      qualifies 50 w0.pool.connTimeOut (fun id => id != 0) { conn := Conn.ref 1, time := 1 }
        = true ∧
      GetAt (fun k => if k = 0 then 50 else 55) (fun id => id != 0) w0
        = Outcome.ret (w1, Conn.ref 2) ∧
      w1.buf = [] ∧ w1.made = 3 ∧
      w1.log = [Event.ping 0, Event.close 0, Event.close 1]) :=
  ⟨⟨_, _, _, _, _, _, rfl, rfl, rfl, rfl, rfl, rfl, rfl, rfl, rfl, by decide, rfl⟩,
   ⟨_, _, rfl, rfl, rfl, by decide, rfl, rfl, rfl, rfl⟩⟩

/-- C19 (amended).  `clock j` is what the clock reads when `Get` examines the entry in
place `j` of the holding area, counted from zero, and an entry qualifies at a reading
when it is fresh at that reading (the reading less its timestamp is at most
`connTimeOut`) and its resource answers the ping.  Let `pre` be a head part of the
holding area of an open pool, free of nil values, none of whose entries qualifies at its
reading.  If the next entry `e` qualifies at its reading, `Get` returns its resource; the
world it leaves differs from the one it found only in that the holding area is what
followed `e`, unchanged, and in the calls recorded, which are, for each entry of `pre` in
queue order, `Close` alone when the entry is stale at its reading and `Ping` then `Close`
otherwise, followed by the `Ping` of the resource returned; the factory is not called.
If `pre` is the whole holding area, `Get` leaves it empty, having made those same calls
on the entries of `pre` and no other, calls the factory once and returns its product, or
nil when it fails.  In both cases the `Close` calls are exactly one per entry of `pre`,
in queue order, and no call is made on a resource that is not in `pre` or returned. -/
theorem Get_fifo (clock : Nat → Int) (ping : Nat → Bool) (w : World)
    (pre : List ConnWithTime) (hopen : w.isOpen) (hpre : NoNil pre)
    (hq : ∀ (j : Nat) (x : ConnWithTime), pre[j]? = some x →
      qualifies (clock j) w.pool.connTimeOut ping x = false) :
    (∀ (e : ConnWithTime) (post : List ConnWithTime),
      w.buf = pre ++ e :: post →
      qualifies (clock pre.length) w.pool.connTimeOut ping e = true →
      ∃ id : Nat, e.conn = Conn.ref id ∧
        GetAt clock ping w = Outcome.ret
          ({ w.setBuf post with
             log := w.log ++ discardEventsAt clock w.pool.connTimeOut 0 pre
                      ++ [Event.ping id] },
            Conn.ref id)) ∧
    (w.buf = pre →
      GetAt clock ping w = Outcome.ret
        ({ w.setBuf [] with
           log := w.log ++ discardEventsAt clock w.pool.connTimeOut 0 pre,
           made := w.made + 1 },
          (w.pool.factory w.made).getD Conn.nil)) ∧
    (∃ ids : List Nat,
      pre.map ConnWithTime.conn = ids.map Conn.ref ∧
      (discardEventsAt clock w.pool.connTimeOut 0 pre).filter Event.isClose
        = ids.map Event.close ∧
      ∀ ev ∈ discardEventsAt clock w.pool.connTimeOut 0 pre,
        ∃ id ∈ ids, ev = Event.ping id ∨ ev = Event.close id) := by
  obtain ⟨hflag, hchan⟩ := hopen
  have hq0 : ∀ (j : Nat) (x : ConnWithTime), pre[j]? = some x →
      qualifies (clock (0 + j)) w.pool.connTimeOut ping x = false := by
    intro j x hx
    rw [Nat.zero_add]
    exact hq j x hx
  refine ⟨?_, ?_, ?_⟩
  · intro e post hbuf hqe
    obtain ⟨id, hc, -⟩ := not_discards_of_qualifies hqe
    have hfresh : ¬ clock pre.length - e.time > w.pool.connTimeOut := by
      unfold qualifies at hqe
      simp only [Bool.and_eq_true, decide_eq_true_eq] at hqe
      exact not_lt.mpr hqe.1
    have hp : ping id = true := by
      unfold qualifies at hqe
      simp only [hc, Bool.and_eq_true, decide_eq_true_eq] at hqe
      exact hqe.2
    refine ⟨id, hc, ?_⟩
    have hbuf1 : w.pool.connChan.buf = pre ++ e :: post := hbuf
    simp only [GetAt, hflag, Bool.false_eq_true, if_false, hbuf1]
    rw [getLoopAt_discard clock ping pre 0 (e :: post) w hbuf hpre hq0, Nat.zero_add]
    have hfresh1 : ¬ clock pre.length - e.time >
        (World.setBuf { w.setBuf (e :: post) with
          log := w.log ++ discardEventsAt clock w.pool.connTimeOut 0 pre } post).pool.connTimeOut :=
      hfresh
    simp only [getLoopAt, hfresh1, if_false, hc, hp, if_true]
    simp only [World.setBuf, World.logEvent]
  · intro hbuf
    have hbuf0 : w.buf = pre ++ [] := by rw [List.append_nil]; exact hbuf
    have hbuf1 : w.pool.connChan.buf = pre ++ [] := hbuf0
    simp only [GetAt, hflag, Bool.false_eq_true, if_false]
    rw [hbuf1, getLoopAt_discard clock ping pre 0 [] w hbuf0 hpre hq0]
    simp only [getLoopAt]
    cases hf : w.pool.factory w.made <;>
      simp [World.setBuf, World.countCall, hchan, hf]
  · obtain ⟨ids, hids1, hids2⟩ := closeEvents_noNil pre hpre
    refine ⟨ids, hids1, ?_, ?_⟩
    · rw [filter_isClose_discardEventsAt, hids2]
    · intro ev hev
      obtain ⟨id, hid, h⟩ := mem_discardEventsAt clock w.pool.connTimeOut pre 0 ev hev
      rw [hids1] at hid
      obtain ⟨id1, hid1, heq⟩ := List.mem_map.1 hid
      injection heq with heq
      subst heq
      exact ⟨id1, hid1, h⟩

/-- Witness of C19 (amended): on the sample pool, whose timeout is 50 and whose two
entries are stamped 0.  With the clock at 50 throughout (both entries have exactly the
age of the timeout) and resource 0 failing the ping, `Get` discards the first entry and
returns resource 1.  With the clock reading 50 and then 51, `Get` pings and closes
resource 0, closes resource 1 unpinged, and returns the product of the factory. -/
theorem Get_fifo_witness :
    (∃ id : Nat, ({ conn := Conn.ref 1, time := 0 } : ConnWithTime).conn = Conn.ref id ∧
      GetAt (fun _ => 50) (fun id => id != 0) sampleOpen = Outcome.ret
        ({ sampleOpen.setBuf [] with
           log := sampleOpen.log
             ++ discardEventsAt (fun _ => 50) sampleOpen.pool.connTimeOut 0
                  [{ conn := Conn.ref 0, time := 0 }]
             ++ [Event.ping id] },
          Conn.ref id)) ∧
    GetAt (fun k => if k = 0 then 50 else 51) (fun id => id != 0) sampleOpen = Outcome.ret
      ({ sampleOpen.setBuf [] with
         log := sampleOpen.log
           ++ discardEventsAt (fun k => if k = 0 then 50 else 51)
                sampleOpen.pool.connTimeOut 0 sampleOpen.buf,
         made := sampleOpen.made + 1 },
        (sampleOpen.pool.factory sampleOpen.made).getD Conn.nil) ∧
    discardEventsAt (fun k => if k = 0 then 50 else 51) sampleOpen.pool.connTimeOut 0
        sampleOpen.buf = [Event.ping 0, Event.close 0, Event.close 1] :=
  ⟨(Get_fifo (fun _ => 50) (fun id => id != 0) sampleOpen
      [{ conn := Conn.ref 0, time := 0 }] ⟨rfl, rfl⟩
      (by intro e he; rw [List.mem_singleton] at he; subst he; simp)
      (by
        intro j x hx
        cases j with
        | zero =>
          simp only [List.getElem?_cons_zero, Option.some.injEq] at hx
          subst hx
          decide
        | succ j => simp at hx)).1
      { conn := Conn.ref 1, time := 0 } [] rfl (by decide),
   (Get_fifo (fun k => if k = 0 then 50 else 51) (fun id => id != 0) sampleOpen
      sampleOpen.buf ⟨rfl, rfl⟩
      (by
        intro e he
        simp [sampleOpen, World.buf] at he
        rcases he with rfl | rfl <;> simp)
      (by
        intro j x hx
        cases j with
        | zero =>
          simp only [sampleOpen, World.buf, List.getElem?_cons_zero, Option.some.injEq] at hx
          subst hx
          decide
        | succ j =>
          cases j with
          | zero =>
            simp only [sampleOpen, World.buf, List.getElem?_cons_succ,
              List.getElem?_cons_zero, Option.some.injEq] at hx
            subst hx
            decide
          | succ j => simp [sampleOpen, World.buf] at hx)).2.1 rfl,
   by decide⟩

/-! ## DelSpace -/

/-- The bound on the iterations of `range` is never reached: any two bounds that are at
least the length of the string give the same runes. -/
theorem runesFuel_enough : ∀ (n : Nat) (s : List Nat) (m : Nat),
    s.length ≤ n → s.length ≤ m → runesFuel n s = runesFuel m s := by
  intro n
  induction n with
  | zero =>
    intro s m hn _
    have hs : s = [] := List.length_eq_zero.1 (Nat.le_zero.1 hn)
    subst hs
    cases m <;> rfl
  | succ n ih =>
    intro s m hn hm
    cases s with
    | nil => cases m <;> rfl
    | cons b0 rest =>
      cases m with
      | zero => simp at hm
      | succ m1 =>
        simp only [runesFuel]
        congr 1
        have hlen : (rest.drop ((decodeRune (b0 :: rest)).2 - 1)).length ≤ rest.length := by
          rw [List.length_drop]
          omega
        simp only [List.length_cons] at hn hm
        exact ih _ m1 (by omega) (by omega)

/-- The byte appended last decides whether a new pair of adjacent spaces appears. -/
theorem adjacentSpaces_concat (b : Nat) : ∀ buf : List Nat,
    adjacentSpaces (buf ++ [b]) =
      (adjacentSpaces buf || (decide (buf.getLast? = some 32) && b == 32)) := by
  intro buf
  induction buf with
  | nil => simp [adjacentSpaces]
  | cons a rest ih =>
    cases rest with
    | nil =>
      by_cases ha : a = 32 <;> simp [adjacentSpaces, ha]
    | cons a2 rest2 =>
      have h1 : adjacentSpaces (a :: a2 :: rest2 ++ [b]) =
          ((a == 32 && a2 == 32) || adjacentSpaces (a2 :: rest2 ++ [b])) := rfl
      have h2 : adjacentSpaces (a :: a2 :: rest2) =
          ((a == 32 && a2 == 32) || adjacentSpaces (a2 :: rest2)) := rfl
      rw [h1, h2, ih, List.getLast?_cons_cons, Bool.or_assoc]

/-- When no rune other than the space has the low byte 32, the loop of `DelSpace` never
writes two spaces in a row. -/
theorem delLoop_no_adjacent : ∀ (rs : List Nat) (flag : Bool) (buf : List Nat),
    (∀ r ∈ rs, r % 256 = 32 → r = 32) →
    adjacentSpaces buf = false → (buf.getLast? = some 32 → flag = true) →
    adjacentSpaces (delLoop rs flag buf) = false := by
  intro rs
  induction rs with
  | nil => intro flag buf _ h _; exact h
  | cons arg rest ih =>
    intro flag buf hrs hadj hflag
    have hrest : ∀ r ∈ rest, r % 256 = 32 → r = 32 :=
      fun r hr => hrs r (List.mem_cons_of_mem _ hr)
    by_cases harg : arg = 32
    · subst harg
      cases hf : flag with
      | false =>
        have hlast : ¬ (buf.getLast? = some 32) := fun h => by
          have := hflag h
          rw [hf] at this
          cases this
        simp only [delLoop, ne_eq, not_true_eq_false, if_false, Bool.not_false, if_true]
        refine ih true _ hrest ?_ (fun _ => rfl)
        rw [adjacentSpaces_concat, hadj]
        simp [hlast]
      | true =>
        simp only [delLoop, ne_eq, not_true_eq_false, if_false, Bool.not_true,
          Bool.false_eq_true]
        exact ih true buf hrest hadj (fun _ => rfl)
    · have hbyte : arg % 256 ≠ 32 := fun h => harg (hrs arg (List.mem_cons_self _ _) h)
      simp only [delLoop, ne_eq, harg, not_false_eq_true, if_true]
      refine ih false _ hrest ?_ ?_
      · rw [adjacentSpaces_concat, hadj]
        simp [hbyte]
      · intro h
        rw [List.getLast?_concat] at h
        injection h with h
        exact absurd h hbyte

/-- On a string none of whose runes other than the space has the low byte 32 (every ASCII
string, for one), the string `DelSpace` splits holds no two adjacent spaces. -/
theorem DelSpace_buffer_no_adjacent (args : List Nat)
    (h : ∀ r ∈ runes args, r % 256 = 32 → r = 32) :
    adjacentSpaces (delLoop (runes args) false []) = false :=
  delLoop_no_adjacent (runes args) false [] h rfl (fun h0 => by simp at h0)

/-- C20, the code at the failing input.  The string `aĠĠb` (bytes 61 C4 A0 C4 A0 62)
decodes to the runes `a`, U+0120, U+0120, `b`.  Neither U+0120 is the space, so `flag`
stays clear, and `byte(arg)` turns each into the byte 0x20: the string that is split
holds two adjacent spaces, and the second of the three elements `DelSpace` returns is the
empty string. -/
theorem DelSpace_truncated_rune :
    runes [0x61, 0xC4, 0xA0, 0xC4, 0xA0, 0x62] = [0x61, 0x120, 0x120, 0x62] ∧
    delLoop (runes [0x61, 0xC4, 0xA0, 0xC4, 0xA0, 0x62]) false [] = [0x61, 32, 32, 0x62] ∧
    adjacentSpaces (delLoop (runes [0x61, 0xC4, 0xA0, 0xC4, 0xA0, 0x62]) false []) = true ∧
    DelSpace [0x61, 0xC4, 0xA0, 0xC4, 0xA0, 0x62] = [[0x61], [], [0x62]] := by
  decide

/-! ## Construction: when it returns and what it returns -/

theorem withCap_mem_capArgs : ∀ (calls : List OptCall) (n : Int),
    OptCall.withCap n ∈ calls → n ∈ capArgs calls := by
  intro calls
  induction calls with
  | nil => intro n h; cases h
  | cons c rest ih =>
    intro n h
    cases c with
    | withCap m =>
      rcases List.mem_cons.1 h with h | h
      · injection h with h
        subst h
        simp [capArgs]
      · simp [capArgs, ih n h]
    | withTimeOut t =>
      rcases List.mem_cons.1 h with h | h
      · cases h
      · simpa [capArgs] using ih n h

/-- Constructor calls whose capacities are within range build option values within
range. -/
theorem build_inRange (numCPU : Int) (calls : List OptCall) (h : capsInRange numCPU calls) :
    ∀ o ∈ calls.map (OptCall.build numCPU), o.InRange := by
  obtain ⟨h0, h1, h2⟩ := h
  intro o ho
  obtain ⟨c, hc, rfl⟩ := List.mem_map.1 ho
  cases c with
  | withCap n =>
    show 0 ≤ (if n < 0 then numCPU else n) ∧ (if n < 0 then numCPU else n) ≤ maxChanSize
    split_ifs with hn
    · exact ⟨h0, h1⟩
    · exact ⟨not_lt.mp hn, h2 n (withCap_mem_capArgs calls n hc)⟩
  | withTimeOut t => trivial

/-- The option loop does not panic on option values within range. -/
theorem applyOpts_inRange : ∀ (opts : List ConnPoolOption) (cp : ConnPool),
    (∀ o ∈ opts, o.InRange) → ∃ cp1, applyOpts opts cp = some cp1 := by
  intro opts
  induction opts with
  | nil => intro cp _; exact ⟨cp, rfl⟩
  | cons o rest ih =>
    intro cp hall
    have hrest : ∀ x ∈ rest, x.InRange := fun x hx => hall x (List.mem_cons_of_mem _ hx)
    have ho := hall o (List.mem_cons_self _ _)
    cases o with
    | ofCap c =>
      obtain ⟨h0, h1⟩ : 0 ≤ c.cap ∧ c.cap ≤ maxChanSize := ho
      obtain ⟨cp1, hcp1⟩ := ih
        { cp with cap := c.cap,
                  connChan := { buf := [], capacity := c.cap.toNat, closed := false } } hrest
      refine ⟨cp1, ?_⟩
      simp only [applyOpts, ConnPoolOption.Apply, connPoolWithCap.Apply,
        makeChan_of_range h0 h1]
      exact hcp1
    | ofTimeOut c =>
      obtain ⟨cp1, hcp1⟩ := ih { cp with connTimeOut := c.timeOut } hrest
      refine ⟨cp1, ?_⟩
      simp only [applyOpts, ConnPoolOption.Apply, connPoolWithTimeOut.Apply]
      exact hcp1

/-- `NewConnPool` returns when `NumCPU` and the capacities of the options are sizes `make`
accepts: no `make` panics and no send of the warm-up loop waits. -/
theorem NewConnPool_returns (numCPU : Int) (clock : Nat → Int) (factory : Factory)
    (opts : List ConnPoolOption) (h0 : 0 ≤ numCPU) (h1 : numCPU ≤ maxChanSize)
    (hopts : ∀ o ∈ opts, o.InRange) :
    ∃ w : World, NewConnPool numCPU clock factory opts = Outcome.ret w := by
  obtain ⟨cp, hcp⟩ := applyOpts_inRange opts
    { connChan := { buf := [], capacity := numCPU.toNat, closed := false }, factory := factory,
      closed := false, connTimeOut := 5 * Second, cap := numCPU } hopts
  have hun : cp.Unfilled := applyOpts_unfilled opts _ cp ⟨h0, rfl, rfl⟩ hcp
  have hchan := hun.2.2
  have hw := warm_ret clock cp.cap.toNat 0 { pool := cp, made := 0, log := [] }
    (by show cp.connChan.closed = false; rw [hchan])
    (by show cp.connChan.buf.length + cp.cap.toNat ≤ cp.connChan.capacity; rw [hchan]; simp)
  have hnew : NewConnPool numCPU clock factory opts
      = warm clock cp.cap.toNat 0 { pool := cp, made := 0, log := [] } := by
    simp only [NewConnPool, makeChan_of_range h0 h1, hcp]
  exact ⟨_, hnew.trans hw⟩

/-- What the pool is like that `NewConnPool` has returned, whatever the options: it is
open, the factory was called `cap` times and no resource was touched, and the holding
area holds the products of the successful calls in call order. -/
theorem NewConnPool_ret_facts (numCPU : Int) (clock : Nat → Int) (factory : Factory)
    (opts : List ConnPoolOption) (w : World)
    (h : NewConnPool numCPU clock factory opts = Outcome.ret w) :
    w.isOpen ∧ w.pool.factory = factory ∧ (w.made : Int) = w.pool.cap ∧ w.log = [] ∧
    w.buf = (List.range w.made).filterMap
      (fun k => (factory k).map (fun c => { conn := c, time := clock k })) ∧
    w.buf.map ConnWithTime.conn = (List.range w.made).filterMap factory := by
  obtain ⟨cp, -, hcp, hfac, rfl⟩ := NewConnPool_ret_shape numCPU clock factory opts w h
  have hbuf : created clock factory 0 0 cp.cap.toNat = (List.range cp.cap.toNat).filterMap
      (fun k => (factory k).map (fun c => ({ conn := c, time := clock k } : ConnWithTime))) := by
    simp [created]
  refine ⟨⟨hcp.2.1, ?_⟩, hfac, Int.toNat_of_nonneg hcp.1, rfl, hbuf, ?_⟩
  · show cp.connChan.closed = false
    rw [hcp.2.2]
  · show (created clock factory 0 0 cp.cap.toNat).map ConnWithTime.conn = _
    rw [hbuf, List.map_filterMap]
    congr 1
    funext k
    cases factory k <;> rfl

/-- C6.  On an open pool whose holding area is empty, `Get` calls the factory exactly
once and returns its product when the call succeeds and nil when it fails; nothing else
changes.  In particular, whatever the options, a pool that `NewConnPool` has built with a
factory that always fails starts with an empty holding area and its `Get` returns nil;
and `NewConnPool` does build such a pool whenever `NumCPU` and the arguments of the
`WithCap` calls are sizes `make` accepts for a channel. -/
theorem Get_empty_calls_factory (now : Int) (ping : Nat → Bool) :
    (∀ w : World, w.isOpen → w.buf = [] →
      Get now ping w = Outcome.ret (w.countCall, (w.pool.factory w.made).getD Conn.nil)) ∧
    (∀ (numCPU : Int) (clock : Nat → Int) (opts : List ConnPoolOption) (w : World),
      NewConnPool numCPU clock failingFactory opts = Outcome.ret w →
      w.isOpen ∧ w.buf = [] ∧ Get now ping w = Outcome.ret (w.countCall, Conn.nil)) ∧
    (∀ (numCPU : Int) (clock : Nat → Int) (calls : List OptCall),
      capsInRange numCPU calls →
      ∃ w : World,
        NewConnPool numCPU clock failingFactory (calls.map (OptCall.build numCPU))
          = Outcome.ret w) := by
  refine ⟨fun w hopen hempty => Get_of_empty now ping w hopen hempty, ?_, ?_⟩
  · intro numCPU clock opts w hret
    obtain ⟨hopen, hfac, -, -, hbuf, -⟩ :=
      NewConnPool_ret_facts numCPU clock failingFactory opts w hret
    have hempty : w.buf = [] := by
      rw [hbuf]
      simp [failingFactory]
    refine ⟨hopen, hempty, ?_⟩
    rw [Get_of_empty now ping w hopen hempty, hfac]
    rfl
  · intro numCPU clock calls hrange
    exact NewConnPool_returns numCPU clock failingFactory _ hrange.1 hrange.2.1
      (build_inRange numCPU calls hrange)

/-- Witness of C6: the sample empty pool, whose factory succeeds, and the pool built with
capacity one from the failing factory. -/
theorem Get_empty_calls_factory_witness :
    Get 7 (fun _ => true) sampleEmpty = Outcome.ret (sampleEmpty.countCall, Conn.ref 2) ∧
    capsInRange 4 [OptCall.withCap 1] ∧
    ∃ w : World,
      NewConnPool 4 (fun _ => 0) failingFactory ([OptCall.withCap 1].map (OptCall.build 4))
        = Outcome.ret w ∧
      w.isOpen ∧ w.buf = [] ∧ Get 7 (fun _ => true) w = Outcome.ret (w.countCall, Conn.nil) :=
  have hrange : capsInRange 4 [OptCall.withCap 1] :=
    ⟨by decide, by decide, by intro n hn; simp [capArgs] at hn; subst hn; decide⟩
  ⟨(Get_empty_calls_factory 7 (fun _ => true)).1 sampleEmpty ⟨rfl, rfl⟩ rfl, hrange,
    ((Get_empty_calls_factory 7 (fun _ => true)).2.2 4 (fun _ => 0)
      [OptCall.withCap 1] hrange).elim
      (fun w hw => ⟨w, hw,
        (Get_empty_calls_factory 7 (fun _ => true)).2.1 4 (fun _ => 0) _ w hw⟩)⟩

/-- C10 (counterexample).  With four CPUs, `NewConnPool(factory, WithCap(1 <<45))`
(the argument is 35184372088832) does not complete: `make` panics with
`makechan: size out of range` in `Apply`.  So does the call with the options
`WithCap(1 <<45)`, `WithCap(2)`. -/
theorem NewConnPool_panics_on_huge_cap :
    NewConnPool 4 (fun _ => 0) freshFactory
      [OptCall.build 4 (OptCall.withCap 35184372088832)] = Outcome.panicked ∧
    NewConnPool 4 (fun _ => 0) freshFactory
      [OptCall.build 4 (OptCall.withCap 35184372088832),
       OptCall.build 4 (OptCall.withCap 2)] = Outcome.panicked :=
  ⟨rfl, rfl⟩

/-- C10 (amended).  For every factory and every list of `WithCap` and `WithTimeOut` calls
such that `NumCPU` and the arguments of the `WithCap` calls are sizes `make` accepts for a
channel, `NewConnPool` returns: it neither waits nor panics.  The pool it returns is
open, its `cap` is the configured capacity (the normalized argument of the last `WithCap`
call, `NumCPU` without one), the factory has been called exactly `cap` times, no resource
has been pinged or closed, and the holding area holds, in call order, exactly the
products of the successful calls, each stamped with the time of its iteration. -/
theorem NewConnPool_warms (numCPU : Int) (clock : Nat → Int) (factory : Factory)
    (calls : List OptCall) (hrange : capsInRange numCPU calls) :
    ∃ w : World,
      NewConnPool numCPU clock factory (calls.map (OptCall.build numCPU)) = Outcome.ret w ∧
      w.isOpen ∧ w.pool.factory = factory ∧
      w.pool.cap = specCap numCPU calls ∧ (w.made : Int) = specCap numCPU calls ∧
      w.log = [] ∧
      w.buf = (List.range w.made).filterMap
        (fun k => (factory k).map (fun c => { conn := c, time := clock k })) ∧
      w.buf.map ConnWithTime.conn = (List.range w.made).filterMap factory := by
  obtain ⟨w, hret⟩ := NewConnPool_returns numCPU clock factory _ hrange.1 hrange.2.1
    (build_inRange numCPU calls hrange)
  obtain ⟨hopen, hfac, hmade, hlog, hbuf, hconn⟩ :=
    NewConnPool_ret_facts numCPU clock factory _ w hret
  obtain ⟨hcap, -⟩ := NewConnPool_config numCPU clock factory calls w hret
  exact ⟨w, hret, hopen, hfac, hcap, by rw [hmade, hcap], hlog, hbuf, hconn⟩

/-- Witness of C10 (amended): four CPUs, the calls `WithCap(3)`, `WithTimeOut(-1)`, and a
factory whose second call fails: three factory calls, two resources buffered. -/
theorem NewConnPool_warms_witness :
    capsInRange 4 [OptCall.withCap 3, OptCall.withTimeOut (-1)] ∧
    specCap 4 [OptCall.withCap 3, OptCall.withTimeOut (-1)] = 3 ∧
    ∃ w : World,
      NewConnPool 4 sampleClock gappyFactory
        ([OptCall.withCap 3, OptCall.withTimeOut (-1)].map (OptCall.build 4))
        = Outcome.ret w ∧
      w.isOpen ∧ w.pool.factory = gappyFactory ∧
      w.pool.cap = specCap 4 [OptCall.withCap 3, OptCall.withTimeOut (-1)] ∧
      (w.made : Int) = specCap 4 [OptCall.withCap 3, OptCall.withTimeOut (-1)] ∧
      w.log = [] ∧
      w.buf = (List.range w.made).filterMap
        (fun k => (gappyFactory k).map (fun c => { conn := c, time := sampleClock k })) ∧
      w.buf.map ConnWithTime.conn = (List.range w.made).filterMap gappyFactory :=
  have hrange : capsInRange 4 [OptCall.withCap 3, OptCall.withTimeOut (-1)] :=
    ⟨by decide, by decide, by intro n hn; simp [capArgs] at hn; subst hn; decide⟩
  ⟨hrange, by decide,
    NewConnPool_warms 4 sampleClock gappyFactory
      [OptCall.withCap 3, OptCall.withTimeOut (-1)] hrange⟩

/-- C11.  For every list of `WithCap` and `WithTimeOut` calls, the pool `NewConnPool`
returns has as `cap` the normalized argument of the last `WithCap` call (`NumCPU` when the
argument is negative or there is no such call) and as `connTimeOut` the normalized
argument of the last `WithTimeOut` call (five seconds when the argument is negative or
there is no such call).  `NewConnPool` returns a pool whenever `NumCPU` and the arguments
of the `WithCap` calls are sizes `make` accepts for a channel.  Both values depend only on
the calls of their own kind: any other list with the same `WithCap` arguments and the
same `WithTimeOut` arguments, however interleaved, gives a pool under the same condition,
with the same two values. -/
theorem NewConnPool_options (numCPU : Int) (clock : Nat → Int) (factory : Factory)
    (calls : List OptCall) :
    (∀ w : World,
      NewConnPool numCPU clock factory (calls.map (OptCall.build numCPU)) = Outcome.ret w →
      w.pool.cap = specCap numCPU calls ∧ w.pool.connTimeOut = specTimeOut calls) ∧
    (capsInRange numCPU calls →
      ∃ w : World,
        NewConnPool numCPU clock factory (calls.map (OptCall.build numCPU))
          = Outcome.ret w) ∧
    (∀ calls2 : List OptCall,
      capArgs calls2 = capArgs calls → timeOutArgs calls2 = timeOutArgs calls →
      (capsInRange numCPU calls →
        ∃ w2 : World,
          NewConnPool numCPU clock factory (calls2.map (OptCall.build numCPU))
            = Outcome.ret w2) ∧
      ∀ w w2 : World,
        NewConnPool numCPU clock factory (calls.map (OptCall.build numCPU))
          = Outcome.ret w →
        NewConnPool numCPU clock factory (calls2.map (OptCall.build numCPU))
          = Outcome.ret w2 →
        w2.pool.cap = w.pool.cap ∧ w2.pool.connTimeOut = w.pool.connTimeOut) := by
  refine ⟨fun w hret => NewConnPool_config numCPU clock factory calls w hret, ?_, ?_⟩
  · intro hrange
    exact NewConnPool_returns numCPU clock factory _ hrange.1 hrange.2.1
      (build_inRange numCPU calls hrange)
  · intro calls2 hc ht
    constructor
    · intro hrange
      have hrange2 : capsInRange numCPU calls2 :=
        ⟨hrange.1, hrange.2.1, by rw [hc]; exact hrange.2.2⟩
      exact NewConnPool_returns numCPU clock factory _ hrange2.1 hrange2.2.1
        (build_inRange numCPU calls2 hrange2)
    · intro w w2 hret hret2
      obtain ⟨h1, h2⟩ := NewConnPool_config numCPU clock factory calls w hret
      obtain ⟨h3, h4⟩ := NewConnPool_config numCPU clock factory calls2 w2 hret2
      refine ⟨?_, ?_⟩
      · rw [h3, h1]; simp only [specCap, hc]
      · rw [h4, h2]; simp only [specTimeOut, ht]

/-- Witness of C11: four CPUs and the calls `WithCap(3)`, `WithTimeOut(-1)`, `WithCap(-2)`,
`WithTimeOut(7)` give a pool with `cap = 4` and `connTimeOut = 7`; so does the list with
the two `WithCap` calls first. -/
theorem NewConnPool_options_witness :
    ∃ w w2 : World,
      NewConnPool 4 sampleClock freshFactory
        ([OptCall.withCap 3, OptCall.withTimeOut (-1), OptCall.withCap (-2),
          OptCall.withTimeOut 7].map (OptCall.build 4)) = Outcome.ret w ∧
      NewConnPool 4 sampleClock freshFactory
        ([OptCall.withCap 3, OptCall.withCap (-2), OptCall.withTimeOut (-1),
          OptCall.withTimeOut 7].map (OptCall.build 4)) = Outcome.ret w2 ∧
      w.pool.cap = 4 ∧ w.pool.connTimeOut = 7 ∧
      (w.pool.cap = specCap 4 [OptCall.withCap 3, OptCall.withTimeOut (-1),
          OptCall.withCap (-2), OptCall.withTimeOut 7] ∧
        w.pool.connTimeOut = specTimeOut [OptCall.withCap 3, OptCall.withTimeOut (-1),
          OptCall.withCap (-2), OptCall.withTimeOut 7]) ∧
      (w2.pool.cap = w.pool.cap ∧ w2.pool.connTimeOut = w.pool.connTimeOut) :=
  ⟨_, _, rfl, rfl, rfl, rfl,
    (NewConnPool_options 4 sampleClock freshFactory
      [OptCall.withCap 3, OptCall.withTimeOut (-1), OptCall.withCap (-2),
        OptCall.withTimeOut 7]).1 _ rfl,
    ((NewConnPool_options 4 sampleClock freshFactory
      [OptCall.withCap 3, OptCall.withTimeOut (-1), OptCall.withCap (-2),
        OptCall.withTimeOut 7]).2.2
      [OptCall.withCap 3, OptCall.withCap (-2), OptCall.withTimeOut (-1),
        OptCall.withTimeOut 7] rfl rfl).2 _ _ rfl rfl⟩

end Util
